import Mathlib

/-!
Verification of the markdown-ai-translator core against its specification.

This file shallowly embeds the block parser (src/parser.ts), the block diff
engine (src/session.ts), the chunk planner, incremental-boundary remapping and
merge step (src/translator.ts) and the two-level translation cache
(src/cache.ts), and proves or refutes the frozen claims about them.

Modelling conventions:
* JavaScript strings are Lean `String`s; `content.split('\n')` becomes
  `splitLines`, `array.join('\n')` becomes `joinLines`.
* The SHA-256 content fingerprint is modelled as an injective fingerprint:
  the content itself serves as the fingerprint value (`generateHash`).
  All code under verification treats hashes opaquely (equality and map keys
  only), so any injective function is an adequate model.
* JavaScript `Map`s are association lists with `Map.get`/`Map.set`/`Map.delete`
  semantics (`lookupKey`, `listSet`, `eraseKey`); a real `Map` never holds a
  duplicated key, which theorems about arbitrary states assume explicitly.
* `Date.now()` becomes an explicit `now : Nat` argument (milliseconds).
* `vscode.LanguageModelChatMessage` and `vscode.LanguageModelChat` are opaque
  to the code under verification; they are modelled as a content-bearing
  structure and an identifier, respectively.
-/

/-- Backtick character (spelled via its code point). -/
def backtickChar : Char := Char.ofNat 96

/-- JS `Map.get k`: first association for key `k`. -/
def lookupKey {β : Type} (k : String) : List (String × β) → Option β
  | [] => none
  | p :: ps => if p.1 = k then some p.2 else lookupKey k ps

/-- JS `Map.set k v`: replace the association in place if the key is present,
otherwise append it. -/
def listSet {β : Type} (m : List (String × β)) (k : String) (v : β) :
    List (String × β) :=
  if (lookupKey k m).isSome then
    m.map (fun p => if p.1 = k then (k, v) else p)
  else m ++ [(k, v)]

/-- JS `Map.delete k`: remove the association for key `k` (the first one;
a real `Map` has at most one). -/
def eraseKey {β : Type} (k : String) : List (String × β) → List (String × β)
  | [] => []
  | p :: ps => if p.1 = k then ps else p :: eraseKey k ps

/-- JS `array.join('\n')`. -/
def joinLines : List String → String
  | [] => ""
  | [l] => l
  | l :: ls => l ++ "\n" ++ joinLines ls

/-- Character-level splitting on the newline character; JS
`content.split('\n')` (a single-character separator splits between every
occurrence and yields `[""]` on the empty string). -/
def splitLinesList : List Char → List (List Char)
  | [] => [[]]
  | c :: rest =>
    if c = '\n' then [] :: splitLinesList rest
    else
      match splitLinesList rest with
      | [] => [[c]]
      | l :: ls => (c :: l) :: ls

/-- JS `content.split('\n')`. -/
def splitLines (content : String) : List String :=
  (splitLinesList content.data).map (fun l => ⟨l⟩)

/-! ## Block data model (src/types/block.ts) -/

/-- Types of Markdown blocks (`BlockType` in src/types/block.ts). -/
inductive BlockType where
  | heading
  | paragraph
  | code_block
  | blockquote
  | list
  | table
  | thematic_break
  | blank_lines
  | html_block
  | front_matter
deriving DecidableEq, Repr

/-- A single Markdown block (`MarkdownBlock` in src/types/block.ts).
Line numbers are `Int` because the source computes them with JS number
arithmetic (`i - 1`, `lines.length - 1`). -/
structure MarkdownBlock where
  index : Nat
  type : BlockType
  content : String
  hash : String
  startLine : Int
  endLine : Int
deriving DecidableEq, Repr

/-- SHA-256 of the content, modelled as an injective content fingerprint
(see the header comment). -/
def generateHash (content : String) : String := content

/-- A parsed Markdown document (`ParsedDocument` in src/types/block.ts). -/
structure ParsedDocument where
  blocks : List MarkdownBlock
  blocksByHash : List (String × List MarkdownBlock)
  documentHash : String
deriving DecidableEq, Repr

/-! ## Parser line predicates (src/parser.ts)

Each predicate is the denotation of the regular expression used in the
source, unfolded into a deterministic character-level test (the patterns
begin with anchored greedy pieces whose alternatives cannot overlap, so the
backtracking search degenerates to the greedy scan implemented here). -/

/-- The character class `\s` of JavaScript regular expressions (also the set
trimmed by `String.prototype.trim`). -/
def isWsChar (c : Char) : Bool :=
  c = ' ' || c = '\t' || c = '\n' || c = '\x0b' || c = '\x0c' || c = '\r' ||
  c = '\u00a0' || c = '\u1680' || ('\u2000' ≤ c && c ≤ '\u200a') ||
  c = '\u2028' || c = '\u2029' || c = '\u202f' || c = '\u205f' ||
  c = '\u3000' || c = '\ufeff'

/-- JS `line.trim()`, as a character list. -/
def jsTrimmed (line : String) : List Char :=
  ((line.data.dropWhile isWsChar).reverse.dropWhile isWsChar).reverse

/-- `line.trim() === ''`. -/
def isBlank (line : String) : Bool :=
  jsTrimmed line = ([] : List Char)

/-- `/^#{1,6}\s/` — a heading line. -/
def isHeading (line : String) : Bool :=
  let cs := line.data
  let k := (cs.takeWhile (· = '#')).length
  decide (1 ≤ k) && decide (k ≤ 6) &&
    (match cs.drop k with
     | c :: _ => isWsChar c
     | [] => false)

/-- `/^(\s{0,3})([-*_])\s*\2\s*\2(\s*\2)*\s*$/` — a thematic break: at most
three leading whitespace characters, then at least three occurrences of one
of `-`, `*`, `_` separated only by whitespace. -/
def isThematicBreak (line : String) : Bool :=
  let cs := line.data
  let ws := cs.takeWhile isWsChar
  let rest := cs.dropWhile isWsChar
  decide (ws.length ≤ 3) &&
    (match rest with
     | [] => false
     | c :: _ =>
       (c = '-' || c = '*' || c = '_') &&
       rest.all (fun x => isWsChar x || x = c) &&
       decide (3 ≤ (rest.filter (· = c)).length))

/-- `/^(\s{0,3})(`{3,}|~{3,})/` — a code-fence opener; returns the fence
character and the length of the (maximal, greedy) fence run. -/
def isCodeFenceStart (line : String) : Option (Char × Nat) :=
  let cs := line.data
  let ws := cs.takeWhile isWsChar
  if ws.length ≤ 3 then
    match cs.drop ws.length with
    | c :: rest =>
      if c = backtickChar || c = '~' then
        let run := 1 + (rest.takeWhile (· = c)).length
        if 3 ≤ run then some (c, run) else none
      else none
    | [] => none
  else none

/-- `^\s{0,3}F{n,}\s*$` with `F` the fence character and `n` the opening
fence length — a code-fence closer. -/
def isCodeFenceEnd (line : String) (fence : Char) (minLength : Nat) : Bool :=
  let cs := line.data
  let ws := cs.takeWhile isWsChar
  decide (ws.length ≤ 3) &&
    (let rest := cs.drop ws.length
     let run := (rest.takeWhile (· = fence)).length
     decide (minLength ≤ run) && (rest.drop run).all isWsChar)

/-- `/^(\s*)[-*+]\s/` or `/^(\s*)\d+[.)]\s/` — a list-item line. -/
def isListItem (line : String) : Bool :=
  let rest := line.data.dropWhile isWsChar
  (match rest with
   | c :: c2 :: _ => (c = '-' || c = '*' || c = '+') && isWsChar c2
   | _ => false) ||
  (let ds := rest.takeWhile (fun c => c.isDigit)
   decide (1 ≤ ds.length) &&
     (match rest.drop ds.length with
      | p :: w :: _ => (p = '.' || p = ')') && isWsChar w
      | _ => false))

/-- `line.trim() === '' || /^\s{2,}/.test(line)` — list continuation. -/
def isListContinuation (line : String) : Bool :=
  isBlank line || decide (2 ≤ (line.data.takeWhile isWsChar).length)

/-- `/^\s{0,3}>/` — a blockquote line. -/
def isBlockquote (line : String) : Bool :=
  let cs := line.data
  let ws := cs.takeWhile isWsChar
  decide (ws.length ≤ 3) &&
    (match cs.drop ws.length with
     | c :: _ => c = '>'
     | [] => false)

/-- A JS line-terminator character (not matched by `.` in a regex). -/
def isLineTerm (c : Char) : Bool :=
  c = '\n' || c = '\r' || c = '\u2028' || c = '\u2029'

/-- Split a character list at line terminators (used to interpret the
unanchored `/\|.*\|/`, whose `.` cannot cross a line terminator). -/
def splitAtTerms : List Char → List (List Char)
  | [] => [[]]
  | c :: rest =>
    if isLineTerm c then [] :: splitAtTerms rest
    else
      match splitAtTerms rest with
      | [] => [[c]]
      | l :: ls => (c :: l) :: ls

/-- `/^\s*\|/.test(line) || /\|.*\|/.test(line)` — a table line. -/
def isTableLine (line : String) : Bool :=
  (match line.data.dropWhile isWsChar with
   | c :: _ => c = '|'
   | [] => false) ||
  (splitAtTerms line.data).any (fun seg => 2 ≤ (seg.filter (· = '|')).length)

/-- Consume `:?-+:?` from the front; `none` when no dash run is present. -/
def sepDashes (cs : List Char) : Option (List Char) :=
  let cs1 := match cs with
    | ':' :: t => t
    | _ => cs
  let run := (cs1.takeWhile (· = '-')).length
  if run = 0 then none
  else
    match cs1.drop run with
    | ':' :: t => some t
    | r => some r

/-- Loop for the `(\|\s*:?-+:?\s*)+\|?\s*$` tail of the table-separator
pattern; `count` counts parsed groups, `fuel` bounds the recursion (each
iteration consumes at least one character). -/
def sepGroupsLoop : Nat → List Char → Nat → Bool
  | 0, _, _ => false
  | _ + 1, [], count => decide (1 ≤ count)
  | fuel + 1, c :: rest, count =>
    if c = '|' then
      match sepDashes (rest.dropWhile isWsChar) with
      | some r3 => sepGroupsLoop fuel (r3.dropWhile isWsChar) (count + 1)
      | none => decide (1 ≤ count) && rest.all isWsChar
    else false

/-- `/^\s*\|?\s*:?-+:?\s*(\|\s*:?-+:?\s*)+\|?\s*$/` — a table separator
line such as `|---|---|`. -/
def isTableSeparator (line : String) : Bool :=
  let cs := line.data.dropWhile isWsChar
  let cs := match cs with
    | '|' :: t => t.dropWhile isWsChar
    | _ => cs
  match sepDashes cs with
  | none => false
  | some r => sepGroupsLoop (r.length + 1) (r.dropWhile isWsChar) 0

/-- Case-insensitive prefix test against a lowercase pattern
(the `/i` regex flag; the patterns involved are ASCII). -/
def startsWithCI (cs : List Char) (pat : String) : Bool :=
  let p := pat.data
  (cs.take p.length).map Char.toLower = p

/-- The HTML block-level tag names enumerated in the source pattern
(`h[1-6]` expanded). -/
def htmlTagNames : List String :=
  ["address", "article", "aside", "base", "basefont", "blockquote", "body",
   "caption", "center", "col", "colgroup", "dd", "details", "dialog", "dir",
   "div", "dl", "dt", "fieldset", "figcaption", "figure", "footer", "form",
   "frame", "frameset", "h1", "h2", "h3", "h4", "h5", "h6", "head", "header",
   "hr", "html", "iframe", "legend", "li", "link", "main", "menu", "menuitem",
   "nav", "noframes", "ol", "optgroup", "option", "p", "param", "section",
   "source", "summary", "table", "tbody", "td", "tfoot", "th", "thead",
   "title", "tr", "track", "ul"]

/-- The HTML block-start pattern of the source (`/^\s*<(script|pre|style|
textarea|!--|!DOCTYPE|\/?(...names...)[\s>\/])/i`). -/
def isHtmlBlockStart (line : String) : Bool :=
  match line.data.dropWhile isWsChar with
  | '<' :: rest =>
    startsWithCI rest "script" || startsWithCI rest "pre" ||
    startsWithCI rest "style" || startsWithCI rest "textarea" ||
    startsWithCI rest "!--" || startsWithCI rest "!doctype" ||
    (let rest2 := match rest with
       | '/' :: t => t
       | _ => rest
     htmlTagNames.any (fun name =>
       startsWithCI rest2 name &&
       (match rest2.drop name.data.length with
        | c :: _ => isWsChar c || c = '>' || c = '/'
        | [] => false)))
  | _ => false

/-- `isFrontMatterStart(line, lineIndex)`: a bare `---` at line 0. -/
def isFrontMatterStart (line : String) (lineIndex : Nat) : Bool :=
  lineIndex = 0 && jsTrimmed line = ['-', '-', '-']

/-- `isFrontMatterEnd`: a bare `---` or `...`. -/
def isFrontMatterEnd (line : String) : Bool :=
  jsTrimmed line = ['-', '-', '-'] || jsTrimmed line = ['.', '.', '.']

/-- `determineBlockType` of src/parser.ts (the unused `prevType` parameter
is omitted; the source never returns `null` since the final case is
`paragraph`). -/
def determineBlockType (line : String) : BlockType :=
  if isHeading line then .heading
  else if isThematicBreak line then .thematic_break
  else if (isCodeFenceStart line).isSome then .code_block
  else if isBlockquote line then .blockquote
  else if isListItem line then .list
  else if isTableLine line then .table
  else if isHtmlBlockStart line then .html_block
  else if isBlank line then .blank_lines
  else .paragraph

/-! ## The block parser (src/parser.ts, `parseMarkdownToBlocks`) -/

/-- Parser state; the code-fence character and length live in the state
(the source keeps them in nullable context fields that are set exactly when
the state is `code_block`). -/
inductive ParserState where
  | normal
  | code_block (fence : Char) (fenceLength : Nat)
  | front_matter
deriving DecidableEq, Repr

/-- `ParserContext` of src/parser.ts. -/
structure ParserContext where
  state : ParserState
  currentBlock : List String
  blockStartLine : Int
  currentType : Option BlockType
deriving DecidableEq, Repr

/-- `finalizeBlock(endLine)`: close the accumulated block (a no-op when
nothing is accumulated) and reset the accumulator. -/
def finalizeBlock (blocks : List MarkdownBlock) (ctx : ParserContext)
    (endLine : Int) : List MarkdownBlock × ParserContext :=
  if ctx.currentBlock = [] then (blocks, ctx)
  else
    let blockContent := joinLines ctx.currentBlock
    (blocks ++ [{ index := blocks.length,
                  type := ctx.currentType.getD .paragraph,
                  content := blockContent,
                  hash := generateHash blockContent,
                  startLine := ctx.blockStartLine,
                  endLine := endLine }],
     { ctx with currentBlock := [], currentType := none })

/-- `startBlock(line, lineIndex, type)`. -/
def startBlock (ctx : ParserContext) (line : String) (lineIndex : Int)
    (type : BlockType) : ParserContext :=
  { ctx with currentBlock := [line], blockStartLine := lineIndex,
             currentType := some type }

/-- `ctx.currentBlock.push(line)`. -/
def pushLine (ctx : ParserContext) (line : String) : ParserContext :=
  { ctx with currentBlock := ctx.currentBlock ++ [line] }

/-- One iteration of the parser loop on `line` at index `i`, with `rest` the
lines after it (used by the list look-ahead). -/
def processLine (line : String) (rest : List String) (i : Nat)
    (blocks : List MarkdownBlock) (ctx : ParserContext) :
    List MarkdownBlock × ParserContext :=
  match ctx.state with
  | .front_matter =>
    let ctx := pushLine ctx line
    if isFrontMatterEnd line && decide (1 < ctx.currentBlock.length) then
      finalizeBlock blocks { ctx with state := .normal } (i : Int)
    else (blocks, ctx)
  | .code_block fence fenceLength =>
    let ctx := pushLine ctx line
    if isCodeFenceEnd line fence fenceLength then
      finalizeBlock blocks { ctx with state := .normal } (i : Int)
    else (blocks, ctx)
  | .normal =>
    if i = 0 && isFrontMatterStart line i then
      (blocks, { state := .front_matter, currentBlock := [line],
                 blockStartLine := (i : Int), currentType := some .front_matter })
    else
      match isCodeFenceStart line with
      | some (fence, fenceLength) =>
        let r := finalizeBlock blocks ctx ((i : Int) - 1)
        (r.1, { startBlock r.2 line (i : Int) .code_block with
                state := .code_block fence fenceLength })
      | none =>
        let lineType := determineBlockType line
        if lineType = .blank_lines then
          if ctx.currentType = some .blank_lines then (blocks, pushLine ctx line)
          else if ctx.currentType = some .list then
            match rest.find? (fun l => !(isBlank l)) with
            | some nextNonBlank =>
              if isListItem nextNonBlank ||
                 decide (2 ≤ (nextNonBlank.data.takeWhile isWsChar).length) then
                (blocks, pushLine ctx line)
              else
                let r := finalizeBlock blocks ctx ((i : Int) - 1)
                (r.1, startBlock r.2 line (i : Int) .blank_lines)
            | none =>
              let r := finalizeBlock blocks ctx ((i : Int) - 1)
              (r.1, startBlock r.2 line (i : Int) .blank_lines)
          else
            let r := finalizeBlock blocks ctx ((i : Int) - 1)
            (r.1, startBlock r.2 line (i : Int) .blank_lines)
        else if lineType = .heading then
          let r := finalizeBlock blocks ctx ((i : Int) - 1)
          finalizeBlock r.1 (startBlock r.2 line (i : Int) .heading) (i : Int)
        else if lineType = .thematic_break then
          let r := finalizeBlock blocks ctx ((i : Int) - 1)
          finalizeBlock r.1 (startBlock r.2 line (i : Int) .thematic_break) (i : Int)
        else if lineType = .blockquote then
          if ctx.currentType = some .blockquote then (blocks, pushLine ctx line)
          else
            let r := finalizeBlock blocks ctx ((i : Int) - 1)
            (r.1, startBlock r.2 line (i : Int) .blockquote)
        else if lineType = .list ||
                (ctx.currentType = some .list && isListContinuation line) then
          if ctx.currentType = some .list then (blocks, pushLine ctx line)
          else
            let r := finalizeBlock blocks ctx ((i : Int) - 1)
            (r.1, startBlock r.2 line (i : Int) .list)
        else if lineType = .table ||
                (ctx.currentType = some .table &&
                 (isTableLine line || isTableSeparator line)) then
          if ctx.currentType = some .table then (blocks, pushLine ctx line)
          else
            let r := finalizeBlock blocks ctx ((i : Int) - 1)
            (r.1, startBlock r.2 line (i : Int) .table)
        else
          if ctx.currentType = some .paragraph then (blocks, pushLine ctx line)
          else
            let r := finalizeBlock blocks ctx ((i : Int) - 1)
            (r.1, startBlock r.2 line (i : Int) .paragraph)

/-- The parser's `for` loop over lines. -/
def parseLoop : List String → Nat → List MarkdownBlock → ParserContext →
    List MarkdownBlock × ParserContext
  | [], _, blocks, ctx => (blocks, ctx)
  | line :: rest, i, blocks, ctx =>
    let r := processLine line rest i blocks ctx
    parseLoop rest (i + 1) r.1 r.2

/-- The initial parser context. -/
def initCtx : ParserContext :=
  { state := .normal, currentBlock := [], blockStartLine := 0,
    currentType := none }

/-- Parse a list of lines into blocks (the loop of `parseMarkdownToBlocks`
followed by the trailing `finalizeBlock(lines.length - 1)`). -/
def parseLines (lines : List String) : List MarkdownBlock :=
  let r := parseLoop lines 0 [] initCtx
  (finalizeBlock r.1 r.2 ((lines.length : Int) - 1)).1

/-- Build the hash → blocks lookup map, in block order. -/
def buildBlocksByHash (blocks : List MarkdownBlock) :
    List (String × List MarkdownBlock) :=
  blocks.foldl
    (fun m b =>
      match lookupKey b.hash m with
      | some _ => m.map (fun p => if p.1 = b.hash then (p.1, p.2 ++ [b]) else p)
      | none => m ++ [(b.hash, [b])])
    []

/-- `parseMarkdownToBlocks` of src/parser.ts. -/
def parseMarkdownToBlocks (content : String) : ParsedDocument :=
  let blocks := parseLines (splitLines content)
  { blocks := blocks,
    blocksByHash := buildBlocksByHash blocks,
    documentHash := generateHash content }

/-- `blocksToContent` of src/parser.ts. -/
def blocksToContent (blocks : List MarkdownBlock) : String :=
  joinLines (blocks.map (·.content))

/-! ## Diff engine data model and `detectBlockChangesInternal`
(src/session.ts) -/

/-- The three change kinds of `BlockChange`. -/
inductive ChangeType where
  | added
  | removed
  | modified
deriving DecidableEq, Repr

/-- `BlockChange` of src/types/block.ts. -/
structure BlockChange where
  type : ChangeType
  oldIndex : Option Nat
  newIndex : Option Nat
  oldBlock : Option MarkdownBlock
  newBlock : Option MarkdownBlock
deriving DecidableEq, Repr

/-- An entry of `BlockDiff.unchangedBlocks`. -/
structure UnchangedBlock where
  oldIndex : Nat
  newIndex : Nat
  block : MarkdownBlock
deriving DecidableEq, Repr

/-- `BlockDiff` of src/types/block.ts. -/
structure BlockDiff where
  hasChanges : Bool
  changes : List BlockChange
  unchangedBlocks : List UnchangedBlock
  summary : String
deriving DecidableEq, Repr

/-- `Math.abs(a - b)` on block indices. -/
def natDist (a b : Nat) : Nat := ((a : Int) - (b : Int)).natAbs

/-- Mutable state threaded through the matching phases: the two
`matched*Indices` sets (as lists in insertion order), `unchangedBlocks`
and `changes`. -/
structure DiffState where
  matchedOld : List Nat
  matchedNew : List Nat
  unchanged : List UnchangedBlock
  changes : List BlockChange
deriving DecidableEq, Repr

/-- Phase 1 inner loop: among old blocks sharing the new block's hash, pick
the not-yet-matched one closest in index (first wins on ties). -/
def hashMatchStep (matchedOld : List Nat) (newIndex : Nat)
    (best : Option (MarkdownBlock × Nat)) (ob : MarkdownBlock) :
    Option (MarkdownBlock × Nat) :=
  if matchedOld.contains ob.index then best
  else
    let d := natDist ob.index newIndex
    match best with
    | none => some (ob, d)
    | some (b, bd) => if d < bd then some (ob, d) else some (b, bd)

def bestHashMatch (cands : List MarkdownBlock) (matchedOld : List Nat)
    (newIndex : Nat) : Option MarkdownBlock :=
  (cands.foldl (hashMatchStep matchedOld newIndex) none).map (·.1)

/-- Phase 1 (exact hash matching) over the new document's blocks. -/
def phase1 (oldDocument : ParsedDocument) :
    List MarkdownBlock → DiffState → DiffState
  | [], st => st
  | nb :: rest, st =>
    let st :=
      match lookupKey nb.hash oldDocument.blocksByHash with
      | none => st
      | some cands =>
        match bestHashMatch cands st.matchedOld nb.index with
        | none => st
        | some ob =>
          { st with
            matchedOld := st.matchedOld ++ [ob.index],
            matchedNew := st.matchedNew ++ [nb.index],
            unchanged := st.unchanged ++ [⟨ob.index, nb.index, nb⟩] }
    phase1 oldDocument rest st

/-- Phase 2 inner loop: closest unmatched old block of the same kind, only
within index distance 3 (`distance < bestDistance && distance <= 3`). -/
def fuzzyMatchStep (matchedOld : List Nat) (nb : MarkdownBlock)
    (best : Option (MarkdownBlock × Nat)) (ob : MarkdownBlock) :
    Option (MarkdownBlock × Nat) :=
  if !(matchedOld.contains ob.index) && ob.type = nb.type then
    let d := natDist ob.index nb.index
    let bd := match best with
      | none => none
      | some (_, bd) => some bd
    if (bd.all (fun b => d < b)) && d ≤ 3 then some (ob, d) else best
  else best

def bestFuzzyMatch (unmatchedOld : List MarkdownBlock) (matchedOld : List Nat)
    (nb : MarkdownBlock) : Option MarkdownBlock :=
  (unmatchedOld.foldl (fuzzyMatchStep matchedOld nb) none).map (·.1)

/-- The `modified` change emitted by phase 2. -/
def mkModified (ob nb : MarkdownBlock) : BlockChange :=
  ⟨.modified, some ob.index, some nb.index, some ob, some nb⟩

/-- The `removed` change emitted by phase 3. -/
def mkRemoved (ob : MarkdownBlock) : BlockChange :=
  ⟨.removed, some ob.index, none, some ob, none⟩

/-- The `added` change emitted by phase 3. -/
def mkAdded (nb : MarkdownBlock) : BlockChange :=
  ⟨.added, none, some nb.index, none, some nb⟩

/-- Phase 2 (position/kind fuzzy matching) over the unmatched new blocks. -/
def phase2 (unmatchedOld : List MarkdownBlock) :
    List MarkdownBlock → DiffState → DiffState
  | [], st => st
  | nb :: rest, st =>
    let st :=
      match bestFuzzyMatch unmatchedOld st.matchedOld nb with
      | none => st
      | some ob =>
        { st with
          matchedOld := st.matchedOld ++ [ob.index],
          matchedNew := st.matchedNew ++ [nb.index],
          changes := st.changes ++ [mkModified ob nb] }
    phase2 unmatchedOld rest st

/-- Sort key: `a.newIndex ?? a.oldIndex ?? 0`. -/
def changeKey (c : BlockChange) : Nat :=
  (c.newIndex.getD (c.oldIndex.getD 0))

/-- Stable insertion into a key-sorted list (a later element goes after all
equal-key earlier elements, as JS stable `Array.prototype.sort`). -/
def insertSorted (c : BlockChange) : List BlockChange → List BlockChange
  | [] => [c]
  | x :: xs =>
    if changeKey x ≤ changeKey c then x :: insertSorted c xs else c :: x :: xs

/-- `changes.sort((a, b) => (a.newIndex ?? a.oldIndex ?? 0) -
(b.newIndex ?? b.oldIndex ?? 0))`, a stable sort. -/
def sortChanges (changes : List BlockChange) : List BlockChange :=
  changes.foldl (fun acc c => insertSorted c acc) []

/-- JS number-to-string on the small naturals involved. -/
def natToString (n : Nat) : String := Nat.repr n

/-- `summarizeBlockChanges` of src/session.ts. -/
def summarizeBlockChanges (changes : List BlockChange) : String :=
  let added := (changes.filter (fun c => c.type = .added)).length
  let removed := (changes.filter (fun c => c.type = .removed)).length
  let modified := (changes.filter (fun c => c.type = .modified)).length
  let parts : List String :=
    (if 0 < added then
      [natToString added ++ " block" ++ (if 1 < added then "s" else "") ++ " added"]
     else []) ++
    (if 0 < removed then
      [natToString removed ++ " block" ++ (if 1 < removed then "s" else "") ++ " removed"]
     else []) ++
    (if 0 < modified then
      [natToString modified ++ " block" ++ (if 1 < modified then "s" else "") ++ " modified"]
     else [])
  String.intercalate ", " parts

/-- The phase-1 result used by `detectBlockChangesInternal`. -/
def phase1State (oldDocument : ParsedDocument) (newDocument : ParsedDocument) :
    DiffState :=
  phase1 oldDocument newDocument.blocks ⟨[], [], [], []⟩

/-- `unmatchedOld` after phase 1. -/
def unmatchedOldBlocks (oldDocument : ParsedDocument)
    (newDocument : ParsedDocument) : List MarkdownBlock :=
  oldDocument.blocks.filter
    (fun ob => !((phase1State oldDocument newDocument).matchedOld.contains ob.index))

/-- `unmatchedNew` after phase 1. -/
def unmatchedNewBlocks (oldDocument : ParsedDocument)
    (newDocument : ParsedDocument) : List MarkdownBlock :=
  newDocument.blocks.filter
    (fun nb => !((phase1State oldDocument newDocument).matchedNew.contains nb.index))

/-- `detectBlockChangesInternal` of src/session.ts. -/
def detectBlockChangesInternal (oldDocument : ParsedDocument)
    (newContent : String) : Option BlockDiff :=
  let newDocument := parseMarkdownToBlocks newContent
  if oldDocument.documentHash = newDocument.documentHash then none
  else
    let s2 := phase2 (unmatchedOldBlocks oldDocument newDocument)
      (unmatchedNewBlocks oldDocument newDocument)
      (phase1State oldDocument newDocument)
    let removed := (oldDocument.blocks.filter
        (fun ob => !(s2.matchedOld.contains ob.index))).map mkRemoved
    let added := (newDocument.blocks.filter
        (fun nb => !(s2.matchedNew.contains nb.index))).map mkAdded
    let changes := sortChanges (s2.changes ++ removed ++ added)
    if changes.length = 0 then none
    else some { hasChanges := true, changes := changes,
                unchangedBlocks := s2.unchanged,
                summary := summarizeBlockChanges changes }

/-! ## Translation session (src/session.ts) -/

/-- Opaque model of `vscode.LanguageModelChatMessage`. -/
structure ChatMessage where
  content : String
deriving DecidableEq, Repr

/-- `SessionState` of src/session.ts; the `vscode.LanguageModelChat`
reference is modelled as an identifier. -/
structure SessionState where
  originalContent : String
  translatedContent : String
  messages : List ChatMessage
  model : Option String
  parsedDocument : Option ParsedDocument
  blockTranslations : Option (List (String × String))
  translatedUpToBlockIndex : Option Nat
deriving DecidableEq, Repr

/-- `TranslationSession.hasSession`. -/
def hasSession (state : Option SessionState) : Bool :=
  state.isSome

/-- `TranslationSession.getState`. -/
def getState (state : Option SessionState) : Option SessionState :=
  state

/-- `TranslationSession.updateSession`: a no-op when no session exists;
otherwise replaces content fields, appends messages, optionally replaces the
parsed document, merges (not replaces) block translations and optionally
updates the progress marker. -/
def updateSession (state : Option SessionState)
    (originalContent translatedContent : String)
    (newMessages : List ChatMessage)
    (parsedDocument : Option ParsedDocument)
    (blockTranslations : Option (List (String × String)))
    (translatedUpToBlockIndex : Option Nat) : Option SessionState :=
  match state with
  | none => none
  | some s =>
    some
      { originalContent := originalContent,
        translatedContent := translatedContent,
        messages := s.messages ++ newMessages,
        model := s.model,
        parsedDocument :=
          match parsedDocument with
          | some p => some p
          | none => s.parsedDocument,
        blockTranslations :=
          match blockTranslations with
          | some bt =>
            some (match s.blockTranslations with
              | some old => bt.foldl (fun m p => listSet m p.1 p.2) old
              | none => bt)
          | none => s.blockTranslations,
        translatedUpToBlockIndex :=
          match translatedUpToBlockIndex with
          | some i => some i
          | none => s.translatedUpToBlockIndex }

/-- `TranslationSession.detectBlockChanges`: returns the diff and the
session state after the call (the source lazily parses and stores
`parsedDocument` when it is absent). -/
def detectBlockChanges (state : Option SessionState) (newContent : String) :
    Option BlockDiff × Option SessionState :=
  match state with
  | none => (none, none)
  | some s =>
    match s.parsedDocument with
    | none =>
      let parsed := parseMarkdownToBlocks s.originalContent
      (detectBlockChangesInternal parsed newContent,
       some { s with parsedDocument := some parsed })
    | some oldDocument =>
      (detectBlockChangesInternal oldDocument newContent, some s)

/-! ## Chunk planner, boundary remap and merge (src/translator.ts) -/

/-- Loop of `selectBlocksForChunk`, recursing over the blocks from
`startIndex` with the running accumulator, total size and last index. -/
def selectBlocksAux (chunkSize : Nat) :
    List MarkdownBlock → Nat → List MarkdownBlock → Nat → Int →
    List MarkdownBlock × Int
  | [], _, acc, _, last => (acc, last)
  | b :: rest, i, acc, totalSize, last =>
    if acc = [] || totalSize + b.content.length ≤ chunkSize then
      selectBlocksAux chunkSize rest (i + 1) (acc ++ [b])
        (totalSize + b.content.length + 1) (i : Int)
    else (acc, last)

/-- `selectBlocksForChunk` of src/translator.ts: greedy accumulation with a
`+1` separator per block, always including at least one block; returns the
selected blocks and the last selected index (`startIndex - 1` when the range
is empty). -/
def selectBlocksForChunk (blocks : List MarkdownBlock) (startIndex : Nat)
    (chunkSize : Nat) : List MarkdownBlock × Int :=
  selectBlocksAux chunkSize (blocks.drop startIndex) startIndex [] 0
    ((startIndex : Int) - 1)

/-- `mergeTranslatedBlocks` of src/translator.ts: walk blocks `0 ..` up to
`upToBlockIndex` (all blocks when absent), replace each block by its mapped
translation (falling back to the original content) and join with newlines. -/
def mergeTranslatedBlocks (document : ParsedDocument)
    (translations : List (String × String)) (upToBlockIndex : Option Nat) :
    String :=
  let lastIndex : Int :=
    match upToBlockIndex with
    | some i => (i : Int)
    | none => (document.blocks.length : Int) - 1
  let count : Nat :=
    if lastIndex < 0 then 0
    else min (lastIndex.toNat + 1) document.blocks.length
  let translatedBlocks := (document.blocks.take count).map
    (fun b =>
      match lookupKey b.hash translations with
      | some t => t
      | none => b.content)
  joinLines translatedBlocks

/-- The identity translation map of claim C1: each block's fingerprint
mapped to that block's own content. -/
def identityTranslationMap (document : ParsedDocument) :
    List (String × String) :=
  document.blocks.map (fun b => (b.hash, b.content))

/-- `Math.max` over a list known to be nonempty (`Math.max(...xs)`). -/
def intMax : List Int → Int
  | [] => 0
  | x :: xs => xs.foldl max x

/-- The `translatedUpToBlockIndex` remapping of
`translateBlocksIncremental` (src/translator.ts lines 1148–1192), extracted
as a pure function of the diff, the previous boundary and the new
document's block count. Returns an `Int` because the final fallback is
`Math.min(old, newDocument.blocks.length - 1)`. Its two fold steps are
named so that their properties can be stated: `remapAccStep` is the
boundary-extension pass over the changes. -/
def remapAccStep (oldTranslatedUpToBlockIndex : Nat) (acc : Int)
    (c : BlockChange) : Int :=
  match c.newIndex, c.oldIndex with
  | some ni, some oi =>
    if c.type = .added && (ni : Int) ≤ acc then max acc (ni : Int)
    else if c.type = .modified && oi ≤ oldTranslatedUpToBlockIndex then
      max acc (ni : Int)
    else acc
  | _, _ => acc

/-- The fold step of the no-unchanged fallback: the highest new index among
modified changes whose old index is within the old boundary. -/
def remapFallbackStep (oldTranslatedUpToBlockIndex : Nat) (acc : Int)
    (c : BlockChange) : Int :=
  match c.oldIndex, c.newIndex with
  | some oi, some ni =>
    if c.type = .modified && oi ≤ oldTranslatedUpToBlockIndex then
      max acc (ni : Int)
    else acc
  | _, _ => acc

def remapBoundary (blockDiff : BlockDiff)
    (oldTranslatedUpToBlockIndex : Nat) (newBlocksLength : Nat) : Int :=
  let unchangedAfterBoundary := blockDiff.unchangedBlocks.filter
    (fun ub => ub.oldIndex ≤ oldTranslatedUpToBlockIndex)
  if unchangedAfterBoundary.length ≠ 0 then
    let maxNewIndex : Int :=
      intMax (unchangedAfterBoundary.map (fun ub => (ub.newIndex : Int)))
    blockDiff.changes.foldl (remapAccStep oldTranslatedUpToBlockIndex)
      maxNewIndex
  else
    let maxModifiedNewIndex : Int := blockDiff.changes.foldl
      (remapFallbackStep oldTranslatedUpToBlockIndex) (-1)
    if 0 ≤ maxModifiedNewIndex then maxModifiedNewIndex
    else min (oldTranslatedUpToBlockIndex : Int) ((newBlocksLength : Int) - 1)

/-- Observable outcome of the session-guard and change-detection prefix of
`translateBlocksIncremental`: the no-session failure, the cached no-change
success, or proceeding to the (external, asynchronous) translation of a
detected diff. -/
inductive IncrementalOutcome where
  | noSession
  | fromCache (translation : String)
  | proceeds (blockDiff : BlockDiff)
deriving DecidableEq, Repr

/-- The synchronous prefix of `translateBlocksIncremental`
(src/translator.ts lines 1110–1143): fail with the no-active-session error
when no session (or no model) exists; return the stored translation when no
changes are detected; otherwise proceed to translating the diff. -/
def translateBlocksIncrementalOutcome (state : Option SessionState)
    (newContent : String) : IncrementalOutcome :=
  match state with
  | none => .noSession
  | some s =>
    if s.model = none then .noSession
    else
      match (detectBlockChanges (some s) newContent).1 with
      | none => .fromCache s.translatedContent
      | some d => .proceeds d

/-! ## Translation cache (src/cache.ts) -/

/-- A whole-document cache entry. -/
structure CacheEntry where
  hash : String
  translation : String
  timestamp : Nat
deriving DecidableEq, Repr

/-- A block-level cache entry. -/
structure BlockCacheEntry where
  translation : String
  timestamp : Nat
deriving DecidableEq, Repr

/-- The two tables of `TranslationCache`. -/
structure CacheState where
  cache : List (String × CacheEntry)
  blockCache : List (String × List (String × BlockCacheEntry))
deriving DecidableEq, Repr

/-- `maxAge` of src/cache.ts: 24 hours in milliseconds. -/
def maxAge : Nat := 24 * 60 * 60 * 1000

/-- `TranslationCache.get` with `Date.now()` explicit: returns the hit (or
miss) and the table after the lazy eviction. -/
def cacheGet (st : CacheState) (content : String) (now : Nat) :
    Option String × CacheState :=
  let hash := generateHash content
  match lookupKey hash st.cache with
  | none => (none, st)
  | some entry =>
    if maxAge < now - entry.timestamp then
      (none, { st with cache := eraseKey hash st.cache })
    else (some entry.translation, st)

/-- `TranslationCache.set` with `Date.now()` explicit. -/
def cacheSet (st : CacheState) (content translation : String) (now : Nat) :
    CacheState :=
  let hash := generateHash content
  { st with cache := listSet st.cache hash ⟨hash, translation, now⟩ }

/-- `TranslationCache.getBlock` with `Date.now()` explicit. -/
def cacheGetBlock (st : CacheState) (sourceHash targetLanguage : String)
    (now : Nat) : Option String × CacheState :=
  match lookupKey sourceHash st.blockCache with
  | none => (none, st)
  | some langMap =>
    match lookupKey targetLanguage langMap with
    | none => (none, st)
    | some entry =>
      if maxAge < now - entry.timestamp then
        let langMap := eraseKey targetLanguage langMap
        let bc :=
          if langMap.length = 0 then eraseKey sourceHash st.blockCache
          else listSet st.blockCache sourceHash langMap
        (none, { st with blockCache := bc })
      else (some entry.translation, st)

/-- `TranslationCache.setBlock` with `Date.now()` explicit. -/
def cacheSetBlock (st : CacheState) (sourceHash targetLanguage
    translation : String) (now : Nat) : CacheState :=
  let langMap := (lookupKey sourceHash st.blockCache).getD []
  let langMap := listSet langMap targetLanguage ⟨translation, now⟩
  { st with blockCache := listSet st.blockCache sourceHash langMap }

/-- Key discipline of real JS `Map`s: no duplicated keys, in either cache
table or in any inner language map. -/
def KeysNodup (st : CacheState) : Prop :=
  (st.cache.map (·.1)).Nodup ∧ (st.blockCache.map (·.1)).Nodup ∧
  ∀ p ∈ st.blockCache, (p.2.map (·.1)).Nodup

/-! ## Lemmas: newline split/join round trip -/

/-- Character-level analogue of `joinLines`. -/
def charJoin : List (List Char) → List Char
  | [] => []
  | [l] => l
  | l :: ls => l ++ '\n' :: charJoin ls

theorem string_data_append (a b : String) : (a ++ b).data = a.data ++ b.data := rfl

theorem joinLines_data (ls : List String) :
    (joinLines ls).data = charJoin (ls.map (·.data)) := by
  induction ls with
  | nil => rfl
  | cons l ls ih =>
    cases ls with
    | nil => rfl
    | cons l2 ls2 =>
      simp only [joinLines, List.map, charJoin, string_data_append, ih]
      simp

theorem splitLinesList_ne_nil (cs : List Char) : splitLinesList cs ≠ [] := by
  induction cs with
  | nil => simp [splitLinesList]
  | cons c rest ih =>
    simp only [splitLinesList]
    split
    · simp
    · cases h : splitLinesList rest with
      | nil => simp
      | cons l ls => simp

theorem charJoin_splitLinesList (cs : List Char) :
    charJoin (splitLinesList cs) = cs := by
  induction cs with
  | nil => rfl
  | cons c rest ih =>
    simp only [splitLinesList]
    split
    · rename_i hc
      cases h : splitLinesList rest with
      | nil => exact absurd h (splitLinesList_ne_nil rest)
      | cons l ls =>
        rw [h] at ih
        simp only [charJoin]
        subst hc
        rw [ih]
        simp
    · cases h : splitLinesList rest with
      | nil => exact absurd h (splitLinesList_ne_nil rest)
      | cons l ls =>
        rw [h] at ih
        cases ls with
        | nil =>
          simp only [charJoin] at ih ⊢
          rw [ih]
        | cons l2 ls2 =>
          simp only [charJoin] at ih ⊢
          simp [← ih]

theorem joinLines_splitLines (s : String) : joinLines (splitLines s) = s := by
  apply String.ext
  rw [splitLines, joinLines_data]
  have : ((splitLinesList s.data).map (fun l => (⟨l⟩ : String))).map (·.data) =
      splitLinesList s.data := by
    rw [List.map_map]
    exact List.map_id' (splitLinesList s.data)
  rw [this, charJoin_splitLinesList]

/-! ## Lemmas: the parser partitions the input lines into its blocks -/

theorem joinLines_append (a b : List String) (ha : a ≠ []) (hb : b ≠ []) :
    joinLines (a ++ b) = joinLines a ++ "\n" ++ joinLines b := by
  induction a with
  | nil => exact absurd rfl ha
  | cons l ls ih =>
    cases ls with
    | nil =>
      cases b with
      | nil => exact absurd rfl hb
      | cons b1 bs => rfl
    | cons l2 ls2 =>
      have step : joinLines ((l :: l2 :: ls2) ++ b) =
          l ++ "\n" ++ joinLines ((l2 :: ls2) ++ b) := rfl
      have step2 : joinLines (l :: l2 :: ls2) =
          l ++ "\n" ++ joinLines (l2 :: ls2) := rfl
      rw [step, ih (by simp), step2]
      apply String.ext
      simp [string_data_append, List.append_assoc]

theorem join_ne_nil_of_head {α : Type} (p : List α) (ps : List (List α))
    (hp : p ≠ []) : (p :: ps).flatten ≠ [] := by
  intro h
  have h2 : p ++ ps.flatten = [] := h
  exact hp (List.append_eq_nil.1 h2).1

theorem joinLines_map_join (pieces : List (List String))
    (h : ∀ p ∈ pieces, p ≠ []) :
    joinLines (pieces.map joinLines) = joinLines pieces.flatten := by
  induction pieces with
  | nil => rfl
  | cons p ps ih =>
    cases hps : ps with
    | nil => simp [joinLines, List.flatten]
    | cons q qs =>
      subst hps
      have hq : q ≠ [] := h q (by simp)
      have hjoin : (q :: qs).flatten ≠ [] := join_ne_nil_of_head q qs hq
      have hp : p ≠ [] := h p (by simp)
      have hmap : (q :: qs).map joinLines ≠ [] := by simp
      calc joinLines ((p :: q :: qs).map joinLines)
          = joinLines ([joinLines p] ++ (q :: qs).map joinLines) := rfl
        _ = joinLines [joinLines p] ++ "\n" ++ joinLines ((q :: qs).map joinLines) :=
            joinLines_append _ _ (by simp) hmap
        _ = joinLines p ++ "\n" ++ joinLines (q :: qs).flatten := by
            rw [ih (fun x hx => h x (by simp [hx]))]; rfl
        _ = joinLines (p ++ (q :: qs).flatten) := by
            rw [joinLines_append p _ hp hjoin]
        _ = joinLines (p :: q :: qs).flatten := rfl

/-- Invariant threaded through the parser loop: the emitted blocks carry
dense indices and content-valued hashes, and their contents are the
newline-joins of a partition of the lines consumed so far, with the current
accumulator holding the (possibly empty) tail of that partition. -/
def StepInv (blocks : List MarkdownBlock) (cur : List String)
    (done : List String) : Prop :=
  blocks.map (·.index) = List.range blocks.length ∧
  (∀ b ∈ blocks, b.hash = b.content) ∧
  ∃ pieces : List (List String),
    (∀ p ∈ pieces, p ≠ []) ∧
    blocks.map (·.content) = pieces.map joinLines ∧
    pieces.flatten ++ cur = done

theorem stepInv_init : StepInv [] [] [] := by
  refine ⟨rfl, by simp, [], by simp, rfl, rfl⟩

theorem stepInv_push (blocks : List MarkdownBlock) (ctx : ParserContext)
    (done : List String) (line : String)
    (h : StepInv blocks ctx.currentBlock done) :
    StepInv blocks (pushLine ctx line).currentBlock (done ++ [line]) := by
  obtain ⟨hidx, hhash, pieces, hne, hcontent, hjoin⟩ := h
  exact ⟨hidx, hhash, pieces, hne, hcontent, by
    simp only [pushLine, ← hjoin, List.append_assoc]⟩

theorem finalizeBlock_currentBlock (blocks : List MarkdownBlock)
    (ctx : ParserContext) (e : Int) :
    (finalizeBlock blocks ctx e).2.currentBlock = [] := by
  rw [finalizeBlock]
  split
  · assumption
  · rfl

theorem stepInv_finalize (blocks : List MarkdownBlock) (ctx : ParserContext)
    (done : List String) (e : Int)
    (h : StepInv blocks ctx.currentBlock done) :
    StepInv (finalizeBlock blocks ctx e).1
      (finalizeBlock blocks ctx e).2.currentBlock done := by
  obtain ⟨hidx, hhash, pieces, hne, hcontent, hjoin⟩ := h
  rw [finalizeBlock]
  split
  · exact ⟨hidx, hhash, pieces, hne, hcontent, hjoin⟩
  · rename_i hcur
    refine ⟨?_, ?_, pieces ++ [ctx.currentBlock], ?_, ?_, ?_⟩
    · simp only [List.map_append, hidx, List.map_cons, List.map_nil,
        List.length_append, List.length_cons, List.length_nil]
      rw [List.range_succ]
    · intro b hb
      rcases List.mem_append.1 hb with hb | hb
      · exact hhash b hb
      · simp only [List.mem_singleton] at hb
        subst hb
        rfl
    · intro p hp
      rcases List.mem_append.1 hp with hp | hp
      · exact hne p hp
      · simp only [List.mem_singleton] at hp
        subst hp
        exact hcur
    · simp [hcontent, generateHash]
    · simp only [List.flatten_append, List.flatten, List.append_nil]
      simpa using hjoin

theorem stepInv_start (blocks : List MarkdownBlock) (ctx : ParserContext)
    (done : List String) (line : String) (i : Int) (ty : BlockType)
    (hcur : ctx.currentBlock = [])
    (h : StepInv blocks ctx.currentBlock done) :
    StepInv blocks (startBlock ctx line i ty).currentBlock (done ++ [line]) := by
  obtain ⟨hidx, hhash, pieces, hne, hcontent, hjoin⟩ := h
  rw [hcur] at hjoin
  exact ⟨hidx, hhash, pieces, hne, hcontent, by
    simp only [startBlock, ← hjoin]; simp⟩

theorem stepInv_singleton (blocks : List MarkdownBlock) (cur done : List String)
    (line : String) (hcur : cur = []) (h : StepInv blocks cur done) :
    StepInv blocks [line] (done ++ [line]) := by
  obtain ⟨hidx, hhash, pieces, hne, hcontent, hjoin⟩ := h
  subst hcur
  refine ⟨hidx, hhash, pieces, hne, hcontent, ?_⟩
  simp only [List.append_nil] at hjoin
  simp [hjoin]

theorem stepInv_close_start (blocks : List MarkdownBlock) (ctx : ParserContext)
    (done : List String) (line : String) (e : Int)
    (h : StepInv blocks ctx.currentBlock done) :
    StepInv (finalizeBlock blocks ctx e).1 [line] (done ++ [line]) :=
  stepInv_singleton _ _ _ _ (finalizeBlock_currentBlock blocks ctx e)
    (stepInv_finalize blocks ctx done e h)

theorem stepInv_processLine (line : String) (rest : List String) (i : Nat)
    (blocks : List MarkdownBlock) (ctx : ParserContext) (done : List String)
    (h : StepInv blocks ctx.currentBlock done)
    (hi0 : i = 0 → ctx.currentBlock = []) :
    StepInv (processLine line rest i blocks ctx).1
      (processLine line rest i blocks ctx).2.currentBlock (done ++ [line]) := by
  rw [processLine]
  cases hst : ctx.state with
  | front_matter =>
    dsimp only
    split
    · exact stepInv_finalize _ _ _ _ (stepInv_push blocks ctx done line h)
    · exact stepInv_push blocks ctx done line h
  | code_block fence fenceLength =>
    dsimp only
    split
    · exact stepInv_finalize _ _ _ _ (stepInv_push blocks ctx done line h)
    · exact stepInv_push blocks ctx done line h
  | normal =>
    dsimp only
    split
    · rename_i hcond
      have hi : i = 0 := by
        simp only [Bool.and_eq_true, decide_eq_true_eq] at hcond
        exact hcond.1
      exact stepInv_singleton blocks ctx.currentBlock done line (hi0 hi) h
    · split
      · exact stepInv_close_start blocks ctx done line _ h
      · split
        · -- blank_lines line type
          split
          · exact stepInv_push blocks ctx done line h
          · split
            · split
              · split
                · exact stepInv_push blocks ctx done line h
                · exact stepInv_close_start blocks ctx done line _ h
              · exact stepInv_close_start blocks ctx done line _ h
            · exact stepInv_close_start blocks ctx done line _ h
        · split
          · -- heading
            exact stepInv_finalize _ _ _ _ (stepInv_close_start blocks ctx done line _ h)
          · split
            · -- thematic break
              exact stepInv_finalize _ _ _ _ (stepInv_close_start blocks ctx done line _ h)
            · split
              · -- blockquote
                split
                · exact stepInv_push blocks ctx done line h
                · exact stepInv_close_start blocks ctx done line _ h
              · split
                · -- list
                  split
                  · exact stepInv_push blocks ctx done line h
                  · exact stepInv_close_start blocks ctx done line _ h
                · split
                  · -- table
                    split
                    · exact stepInv_push blocks ctx done line h
                    · exact stepInv_close_start blocks ctx done line _ h
                  · -- paragraph
                    split
                    · exact stepInv_push blocks ctx done line h
                    · exact stepInv_close_start blocks ctx done line _ h

theorem stepInv_parseLoop (lines : List String) :
    ∀ (i : Nat) (blocks : List MarkdownBlock) (ctx : ParserContext)
      (done : List String),
      StepInv blocks ctx.currentBlock done → (i = 0 → ctx.currentBlock = []) →
      StepInv (parseLoop lines i blocks ctx).1
        (parseLoop lines i blocks ctx).2.currentBlock (done ++ lines) := by
  induction lines with
  | nil =>
    intro i blocks ctx done h _
    simpa [parseLoop] using h
  | cons line rest ih =>
    intro i blocks ctx done h hi0
    rw [parseLoop]
    have step := stepInv_processLine line rest i blocks ctx done h hi0
    have next := ih (i + 1) (processLine line rest i blocks ctx).1
      (processLine line rest i blocks ctx).2 (done ++ [line]) step (by simp)
    simpa [List.append_assoc] using next

theorem stepInv_parseLines (lines : List String) :
    StepInv (parseLines lines) [] lines := by
  rw [parseLines]
  have h := stepInv_parseLoop lines 0 [] initCtx [] stepInv_init
    (fun _ => rfl)
  have h2 := stepInv_finalize (parseLoop lines 0 [] initCtx).1
    (parseLoop lines 0 [] initCtx).2 ([] ++ lines) ((lines.length : Int) - 1) h
  rw [finalizeBlock_currentBlock] at h2
  simpa using h2

/-- The parser partitions the input lines: joining all block contents with
newlines reproduces the newline-join of the lines. -/
theorem blocksToContent_parseLines (lines : List String) :
    blocksToContent (parseLines lines) = joinLines lines := by
  obtain ⟨_, _, pieces, hne, hcontent, hjoin⟩ := stepInv_parseLines lines
  simp only [List.append_nil] at hjoin
  rw [blocksToContent, hcontent, joinLines_map_join pieces hne, hjoin]

/-- Parsed blocks carry dense indices `0, 1, 2, …`. -/
theorem parseLines_dense (lines : List String) :
    (parseLines lines).map (·.index) = List.range (parseLines lines).length :=
  (stepInv_parseLines lines).1

/-- Every parsed block's hash is its content (under the fingerprint model). -/
theorem parseLines_hash (lines : List String) :
    ∀ b ∈ parseLines lines, b.hash = b.content :=
  (stepInv_parseLines lines).2.1

/-! ## Lemmas: merge with the identity translation map (claim C1) -/

theorem lookupKey_idMap (blocks : List MarkdownBlock)
    (hh : ∀ b ∈ blocks, b.hash = b.content) :
    ∀ b ∈ blocks,
      lookupKey b.hash (blocks.map (fun x => (x.hash, x.content))) =
        some b.content := by
  induction blocks with
  | nil => intro b hb; exact absurd hb (List.not_mem_nil b)
  | cons x xs ih =>
    intro b hb
    simp only [List.map_cons, lookupKey]
    by_cases hx : x.hash = b.hash
    · rw [if_pos hx]
      have hxc : x.content = b.content := by
        have h1 := hh x (by simp)
        have h2 := hh b hb
        rw [← h1, hx, h2]
      rw [hxc]
    · rw [if_neg hx]
      rcases List.mem_cons.1 hb with hb | hb
      · subst hb; exact absurd rfl hx
      · exact ih (fun c hc => hh c (by simp [hc])) b hb

theorem mergeTranslatedBlocks_none (doc : ParsedDocument)
    (tr : List (String × String)) :
    mergeTranslatedBlocks doc tr none =
      joinLines (doc.blocks.map
        (fun b =>
          match lookupKey b.hash tr with
          | some t => t
          | none => b.content)) := by
  rw [mergeTranslatedBlocks]
  have hcount : (if ((doc.blocks.length : Int) - 1) < 0 then 0
      else min (((doc.blocks.length : Int) - 1).toNat + 1) doc.blocks.length) =
      doc.blocks.length := by
    rcases Nat.eq_zero_or_pos doc.blocks.length with h | h
    · rw [h]; norm_num
    · rw [if_neg (by omega)]
      have ht : ((doc.blocks.length : Int) - 1).toNat = doc.blocks.length - 1 := by
        omega
      rw [ht]
      omega
  rw [hcount, List.take_length]

/-- Claim C1 (round-trip): merging the parsed document with the identity
translation map — each block's fingerprint mapped to that block's own
content — reconstructs the original text, and equivalently the newline-join
of all parsed block contents reproduces the input text. -/
theorem roundtrip_merge_parse (text : String) :
    mergeTranslatedBlocks (parseMarkdownToBlocks text)
      (identityTranslationMap (parseMarkdownToBlocks text)) none = text ∧
    blocksToContent (parseMarkdownToBlocks text).blocks = text := by
  have hblocks : (parseMarkdownToBlocks text).blocks =
      parseLines (splitLines text) := rfl
  have hcontent : blocksToContent (parseMarkdownToBlocks text).blocks = text := by
    rw [hblocks, blocksToContent_parseLines, joinLines_splitLines]
  refine ⟨?_, hcontent⟩
  rw [mergeTranslatedBlocks_none]
  have hhash : ∀ b ∈ (parseMarkdownToBlocks text).blocks, b.hash = b.content := by
    rw [hblocks]; exact parseLines_hash (splitLines text)
  have hmap : (parseMarkdownToBlocks text).blocks.map
      (fun b =>
        match lookupKey b.hash (identityTranslationMap (parseMarkdownToBlocks text)) with
        | some t => t
        | none => b.content) =
      (parseMarkdownToBlocks text).blocks.map (·.content) := by
    apply List.map_congr_left
    intro b hb
    rw [identityTranslationMap, lookupKey_idMap _ hhash b hb]
  rw [hmap]
  exact hcontent

/-! ## Claim C3: the three-block scenario document -/

/-- The scenario document of claim C3. -/
def c3Document : String := "# Title\n\nHello world.\n"

/-- Claim C3 counterexample: the scenario document parses to 4 blocks, not
3 — the trailing newline yields a fourth (blank-lines) block — so the claim
that exactly 3 blocks with indices 0–2 are produced is false. -/
theorem c3_counterexample :
    (parseMarkdownToBlocks c3Document).blocks.length = 4 ∧
    (parseMarkdownToBlocks c3Document).blocks.length ≠ 3 := by
  constructor
  · rfl
  · decide

/-- Claim C3 amended: the document `"# Title\n\nHello world.\n"` parses to
exactly 4 blocks with dense indices 0–3: a heading `"# Title"`, a
blank-lines block `""`, a paragraph `"Hello world."`, and a final
blank-lines block `""` for the trailing newline. -/
theorem c3_amended :
    (parseMarkdownToBlocks c3Document).blocks.map
      (fun b => (b.index, b.type, b.content)) =
    [(0, .heading, "# Title"), (1, .blank_lines, ""),
     (2, .paragraph, "Hello world."), (3, .blank_lines, "")] := by
  rfl

/-! ## Claim C4: the chunk-planner scenario -/

/-- A demonstration block for the chunk-planner scenario (only `content`
matters to the planner). -/
def mkDemoBlock (i : Nat) (c : String) : MarkdownBlock :=
  { index := i, type := .paragraph, content := c, hash := generateHash c,
    startLine := 0, endLine := 0 }

/-- Three blocks whose content lengths are 5, 8 and 3 (claim C4). -/
def demoBlocks : List MarkdownBlock :=
  [mkDemoBlock 0 "aaaaa", mkDemoBlock 1 "bbbbbbbb", mkDemoBlock 2 "ccc"]

/-- Claim C4 counterexample: with size limit 10, the second planner call
(from index 1) selects only block 1 — after block 1 the accumulated size is
8 + 1 = 9 and 9 + 3 > 10 — so the claimed grouping `[block1, block2]` is
false. -/
theorem c4_counterexample :
    (selectBlocksForChunk demoBlocks 1 10).1 = [mkDemoBlock 1 "bbbbbbbb"] ∧
    (selectBlocksForChunk demoBlocks 1 10).1 ≠
      [mkDemoBlock 1 "bbbbbbbb", mkDemoBlock 2 "ccc"] := by
  constructor
  · rfl
  · decide

/-- Claim C4 amended: with size limit 10 over blocks of lengths [5, 8, 3],
successive planner calls (each starting one past the last returned index)
group the blocks as `[block0]`, `[block1]`, `[block2]` — accumulating
`len(content) + 1` per block, stopping before any block that would push the
accumulated size past the limit — and a single oversized block is still
selected on its own. -/
theorem c4_amended :
    selectBlocksForChunk demoBlocks 0 10 = ([mkDemoBlock 0 "aaaaa"], 0) ∧
    selectBlocksForChunk demoBlocks 1 10 = ([mkDemoBlock 1 "bbbbbbbb"], 1) ∧
    selectBlocksForChunk demoBlocks 2 10 = ([mkDemoBlock 2 "ccc"], 2) ∧
    selectBlocksForChunk [mkDemoBlock 0 "bbbbbbbb"] 0 3 =
      ([mkDemoBlock 0 "bbbbbbbb"], 0) := by
  refine ⟨rfl, rfl, rfl, rfl⟩

/-! ## Claims C6, C7, C10: session-level behaviours -/

/-- A concrete active session that has no stored parsed document. -/
def sessionNoDoc : SessionState :=
  { originalContent := "a", translatedContent := "t", messages := [],
    model := some "model-1", parsedDocument := none, blockTranslations := none,
    translatedUpToBlockIndex := none }

/-- Claim C6 counterexample: on a session without a stored parsed document,
`detectBlockChanges` mutates the session — it stores the parse of
`originalContent` into `parsedDocument` — so the claim that no field is
ever mutated is false. -/
theorem c6_counterexample :
    (detectBlockChanges (some sessionNoDoc) "b").2 ≠ some sessionNoDoc ∧
    (detectBlockChanges (some sessionNoDoc) "b").2 =
      some { sessionNoDoc with
             parsedDocument := some (parseMarkdownToBlocks "a") } := by
  constructor
  · decide
  · rfl

/-- Claim C6 amended: `detectBlockChanges` leaves the session untouched
whenever the session already stores a parsed document; when it does not,
the one and only mutation is lazily caching the parse of the session's own
`originalContent` into `parsedDocument`, every other field being kept. -/
theorem c6_amended (s : SessionState) (newContent : String)
    (h : s.parsedDocument.isSome) :
    (detectBlockChanges (some s) newContent).2 = some s := by
  rw [detectBlockChanges]
  match hdoc : s.parsedDocument with
  | some d => rfl
  | none => rw [hdoc] at h; exact absurd h (by simp)

/-- Witness for `c6_amended` at a concrete session. -/
theorem c6_amended_witness :
    (detectBlockChanges
      (some { sessionNoDoc with
              parsedDocument := some (parseMarkdownToBlocks "a") }) "b").2 =
    some { sessionNoDoc with
           parsedDocument := some (parseMarkdownToBlocks "a") } :=
  c6_amended _ "b" (by simp)

/-- A concrete session whose stored document matches the text "x" (so that
a `detectBlockChanges` call on "x" is a successful no-changes call). -/
def sessionForX : SessionState :=
  { originalContent := "x", translatedContent := "tx", messages := [],
    model := some "model-1",
    parsedDocument := some (parseMarkdownToBlocks "x"),
    blockTranslations := none, translatedUpToBlockIndex := none }

/-- Claim C7 counterexample: with no session, `detectBlockChanges` returns
`null` — exactly the value a successful no-changes call returns — so the
claim that both session-requiring operations fail with a result
distinguishable from a successful no-changes result is false. -/
theorem c7_counterexample :
    (detectBlockChanges none "x").1 = none ∧
    (detectBlockChanges (some sessionForX) "x").1 = none ∧
    (detectBlockChanges none "x").1 = (detectBlockChanges (some sessionForX) "x").1 := by
  refine ⟨rfl, ?_, ?_⟩ <;> rfl

/-- Claim C7 amended: with no active session,
`translateBlocksIncremental` fails with the no-active-session error — a
result distinguishable from any successful cached result — while
`detectBlockChanges` merely returns `null`, the same value it returns for a
successful no-changes call. -/
theorem c7_amended (newContent : String) :
    translateBlocksIncrementalOutcome none newContent = .noSession ∧
    detectBlockChanges none newContent = (none, none) ∧
    (∀ t : String, IncrementalOutcome.noSession ≠ .fromCache t) ∧
    (∀ d : BlockDiff, IncrementalOutcome.noSession ≠ .proceeds d) := by
  refine ⟨rfl, rfl, fun t h => ?_, fun d h => ?_⟩ <;> exact IncrementalOutcome.noConfusion h

/-- Claim C10 (implicit): `updateSession` with no session is a silent
no-op — for every argument list it returns without error, creates no
session, and leaves `hasSession` false and `getState` null. -/
theorem updateSession_no_session (originalContent translatedContent : String)
    (newMessages : List ChatMessage) (parsedDocument : Option ParsedDocument)
    (blockTranslations : Option (List (String × String)))
    (translatedUpToBlockIndex : Option Nat) :
    updateSession none originalContent translatedContent newMessages
        parsedDocument blockTranslations translatedUpToBlockIndex = none ∧
    hasSession (updateSession none originalContent translatedContent
        newMessages parsedDocument blockTranslations
        translatedUpToBlockIndex) = false ∧
    getState (updateSession none originalContent translatedContent
        newMessages parsedDocument blockTranslations
        translatedUpToBlockIndex) = none := by
  refine ⟨rfl, rfl, rfl⟩

/-! ## Claim C5: boundary remap monotonicity -/

theorem foldl_le_of_step_le {α : Type} (f : Int → α → Int)
    (hstep : ∀ acc c, acc ≤ f acc c) :
    ∀ (l : List α) (acc : Int), acc ≤ l.foldl f acc := by
  intro l
  induction l with
  | nil => intro acc; exact le_refl acc
  | cons c rest ih =>
    intro acc
    exact le_trans (hstep acc c) (ih (f acc c))

theorem remapAccStep_le (oldIdx : Nat) :
    ∀ (acc : Int) (c : BlockChange), acc ≤ remapAccStep oldIdx acc c := by
  intro acc c
  rw [remapAccStep]
  rcases c.newIndex with _ | ni <;> rcases c.oldIndex with _ | oi
  · exact le_refl acc
  · exact le_refl acc
  · exact le_refl acc
  · dsimp only
    split
    · exact le_max_left _ _
    · split
      · exact le_max_left _ _
      · exact le_refl acc

theorem remapFallbackStep_le (oldIdx : Nat) :
    ∀ (acc : Int) (c : BlockChange), acc ≤ remapFallbackStep oldIdx acc c := by
  intro acc c
  rw [remapFallbackStep]
  rcases c.oldIndex with _ | oi <;> rcases c.newIndex with _ | ni
  · exact le_refl acc
  · exact le_refl acc
  · exact le_refl acc
  · dsimp only
    split
    · exact le_max_left _ _
    · exact le_refl acc

theorem foldl_max_le_elem : ∀ (l : List Int) (a : Int) (x : Int), x ∈ l →
    x ≤ l.foldl max a := by
  intro l
  induction l with
  | nil => intro a x hx; exact absurd hx (List.not_mem_nil x)
  | cons y ys ih =>
    intro a x hx
    rcases List.mem_cons.1 hx with hx | hx
    · subst hx
      exact le_trans (le_max_right a x)
        (foldl_le_of_step_le max (fun acc c => le_max_left acc c) ys (max a x))
    · exact ih (max a y) x hx

theorem le_intMax (l : List Int) (x : Int) (hx : x ∈ l) : x ≤ intMax l := by
  cases l with
  | nil => exact absurd hx (List.not_mem_nil x)
  | cons y ys =>
    rw [intMax]
    rcases List.mem_cons.1 hx with hx | hx
    · subst hx
      exact foldl_le_of_step_le max (fun acc c => le_max_left acc c) ys x
    · exact foldl_max_le_elem ys y x hx

/-- Whether a change is a `modified` change with both indices present whose
old index is at or before the boundary (the fallback filter of claim C5). -/
def modInRange (oldIdx : Nat) (c : BlockChange) : Bool :=
  match c.oldIndex, c.newIndex with
  | some oi, some _ => c.type = .modified && oi ≤ oldIdx
  | _, _ => false

/-- The new indices of changes passing `modInRange`, in change order. -/
def modNewIndices (l : List BlockChange) (oldIdx : Nat) : List Nat :=
  (l.filter (modInRange oldIdx)).filterMap (·.newIndex)

theorem fallback_step_of_mod (oldIdx : Nat) (c : BlockChange) (acc : Int)
    (h : modInRange oldIdx c = true) :
    ∃ ni : Nat, c.newIndex = some ni ∧
      remapFallbackStep oldIdx acc c = max acc (ni : Int) := by
  obtain ⟨ty, oi, ni, ob, nb⟩ := c
  rcases oi with _ | oi <;> rcases ni with _ | ni <;>
    simp only [modInRange] at h
  · exact absurd h (by simp)
  · exact absurd h (by simp)
  · exact absurd h (by simp)
  · refine ⟨ni, rfl, ?_⟩
    simp only [remapFallbackStep]
    rw [if_pos h]

theorem fallback_step_of_not_mod (oldIdx : Nat) (c : BlockChange) (acc : Int)
    (h : ¬ modInRange oldIdx c = true) :
    remapFallbackStep oldIdx acc c = acc := by
  obtain ⟨ty, oi, ni, ob, nb⟩ := c
  rcases oi with _ | oi <;> rcases ni with _ | ni <;>
    simp only [modInRange] at h <;> simp only [remapFallbackStep]
  rw [if_neg h]

theorem modNewIndices_cons (oldIdx : Nat) (c : BlockChange)
    (rest : List BlockChange) :
    modNewIndices (c :: rest) oldIdx =
      (if modInRange oldIdx c then c.newIndex.toList else []) ++
        modNewIndices rest oldIdx := by
  rw [modNewIndices, modNewIndices, List.filter_cons]
  split
  · rename_i h
    rw [List.filterMap_cons]
    rcases hni : c.newIndex with _ | ni
    · obtain ⟨ty, oi, ni, ob, nb⟩ := c
      simp only at hni
      subst hni
      rcases oi with _ | oi <;> simp only [modInRange] at h
      · exact absurd h (by simp)
      · exact absurd h (by simp)
    · simp [hni]
  · simp

theorem fold_fallback_ub (oldIdx : Nat) :
    ∀ (l : List BlockChange) (acc : Int) (v : Nat),
      v ∈ modNewIndices l oldIdx →
      (v : Int) ≤ l.foldl (remapFallbackStep oldIdx) acc := by
  intro l
  induction l with
  | nil => intro acc v hv; exact absurd hv (by simp [modNewIndices])
  | cons c rest ih =>
    intro acc v hv
    rw [modNewIndices_cons] at hv
    rw [List.foldl_cons]
    rcases List.mem_append.1 hv with hv | hv
    · by_cases hc : modInRange oldIdx c = true
      · rw [if_pos hc] at hv
        obtain ⟨ni, hni, hstep⟩ := fallback_step_of_mod oldIdx c acc hc
        rw [hni] at hv
        simp only [Option.toList_some, List.mem_singleton] at hv
        subst hv
        rw [hstep]
        exact le_trans (le_max_right acc (v : Int))
          (foldl_le_of_step_le _ (remapFallbackStep_le oldIdx) rest _)
      · rw [if_neg hc] at hv
        exact absurd hv (List.not_mem_nil v)
    · exact ih _ v hv

theorem fold_fallback_cases (oldIdx : Nat) :
    ∀ (l : List BlockChange) (acc : Int),
      l.foldl (remapFallbackStep oldIdx) acc = acc ∨
      ∃ v ∈ modNewIndices l oldIdx,
        l.foldl (remapFallbackStep oldIdx) acc = (v : Int) := by
  intro l
  induction l with
  | nil => intro acc; exact Or.inl rfl
  | cons c rest ih =>
    intro acc
    rw [List.foldl_cons]
    by_cases hc : modInRange oldIdx c = true
    · obtain ⟨ni, hni, hstep⟩ := fallback_step_of_mod oldIdx c acc hc
      rw [hstep]
      have hmem : ni ∈ modNewIndices (c :: rest) oldIdx := by
        rw [modNewIndices_cons, if_pos hc, hni]
        simp
      rcases max_choice acc (ni : Int) with hmax | hmax <;> rw [hmax]
      · rcases ih acc with h | ⟨v, hv, heq⟩
        · exact Or.inl h
        · exact Or.inr ⟨v, by rw [modNewIndices_cons]; exact List.mem_append_right _ hv, heq⟩
      · rcases ih (ni : Int) with h | ⟨v, hv, heq⟩
        · exact Or.inr ⟨ni, hmem, h⟩
        · exact Or.inr ⟨v, by rw [modNewIndices_cons]; exact List.mem_append_right _ hv, heq⟩
    · rw [fallback_step_of_not_mod oldIdx c acc hc]
      rcases ih acc with h | ⟨v, hv, heq⟩
      · exact Or.inl h
      · refine Or.inr ⟨v, ?_, heq⟩
        rw [modNewIndices_cons, if_neg hc]
        exact List.mem_append_right _ hv

/-- Claim C5 (boundary remap monotonicity): when no removed change lies at
or before the old boundary, the remapped boundary is at least the new index
of every unchanged block mapping from an old index within the boundary;
with no such unchanged block it is exactly the highest new index among
in-range modified changes, and with none of those either it is the old
boundary clamped to the new document's size. -/
theorem remap_boundary_monotone (d : BlockDiff) (oldIdx newLen : Nat)
    (_hrem : ∀ c ∈ d.changes, c.type = .removed →
      ∀ j, c.oldIndex = some j → oldIdx < j) :
    (∀ u ∈ d.unchangedBlocks, u.oldIndex ≤ oldIdx →
        (u.newIndex : Int) ≤ remapBoundary d oldIdx newLen) ∧
    ((∀ u ∈ d.unchangedBlocks, ¬ u.oldIndex ≤ oldIdx) →
      (modNewIndices d.changes oldIdx ≠ [] →
        (∃ v ∈ modNewIndices d.changes oldIdx,
          remapBoundary d oldIdx newLen = (v : Int)) ∧
        ∀ v ∈ modNewIndices d.changes oldIdx,
          (v : Int) ≤ remapBoundary d oldIdx newLen) ∧
      (modNewIndices d.changes oldIdx = [] →
        remapBoundary d oldIdx newLen =
          min (oldIdx : Int) ((newLen : Int) - 1))) := by
  constructor
  · intro u hu hle
    rw [remapBoundary]
    have humem : u ∈ d.unchangedBlocks.filter
        (fun ub => ub.oldIndex ≤ oldIdx) := by
      rw [List.mem_filter]
      exact ⟨hu, by simpa using hle⟩
    have hne : (d.unchangedBlocks.filter
        (fun ub => ub.oldIndex ≤ oldIdx)).length ≠ 0 := by
      intro h0
      rw [List.length_eq_zero] at h0
      rw [h0] at humem
      exact absurd humem (List.not_mem_nil u)
    rw [if_pos hne]
    refine le_trans ?_
      (foldl_le_of_step_le _ (remapAccStep_le oldIdx) d.changes _)
    exact le_intMax _ _ (List.mem_map_of_mem _ humem)
  · intro hnone
    have hfe : d.unchangedBlocks.filter (fun ub => ub.oldIndex ≤ oldIdx) = [] := by
      rw [List.filter_eq_nil_iff]
      intro u hu
      simpa using hnone u hu
    have hcond : ¬ ((d.unchangedBlocks.filter
        (fun ub => ub.oldIndex ≤ oldIdx)).length ≠ 0) := by
      rw [hfe]
      simp
    have hrb : remapBoundary d oldIdx newLen =
        (if 0 ≤ d.changes.foldl (remapFallbackStep oldIdx) (-1) then
          d.changes.foldl (remapFallbackStep oldIdx) (-1)
        else min (oldIdx : Int) ((newLen : Int) - 1)) := by
      rw [remapBoundary, if_neg hcond]
    constructor
    · intro hvne
      rcases fold_fallback_cases oldIdx d.changes (-1) with hc | ⟨v, hv, heq⟩
      · obtain ⟨v0, hv0⟩ := List.exists_mem_of_ne_nil _ hvne
        have hub := fold_fallback_ub oldIdx d.changes (-1) v0 hv0
        rw [hc] at hub
        have := Int.natCast_nonneg v0
        omega
      · have hge : (0 : Int) ≤ d.changes.foldl (remapFallbackStep oldIdx) (-1) := by
          rw [heq]
          exact Int.natCast_nonneg v
        rw [hrb, if_pos hge]
        exact ⟨⟨v, hv, heq⟩,
          fun w hw => fold_fallback_ub oldIdx d.changes (-1) w hw⟩
    · intro hve
      rcases fold_fallback_cases oldIdx d.changes (-1) with hc | ⟨v, hv, heq⟩
      · rw [hrb, hc]
        norm_num
      · rw [hve] at hv
        exact absurd hv (List.not_mem_nil v)

/-- A concrete diff for the C5 witness: one unchanged block, no changes. -/
def c5WitnessDiff : BlockDiff :=
  { hasChanges := true,
    changes := [],
    unchangedBlocks := [⟨0, 0, mkDemoBlock 0 "aaaaa"⟩],
    summary := "" }

/-- Witness for `remap_boundary_monotone` at a concrete diff (no removed
changes, one unchanged block within the boundary). -/
theorem remap_boundary_monotone_witness :
    (∀ u ∈ c5WitnessDiff.unchangedBlocks, u.oldIndex ≤ 0 →
        (u.newIndex : Int) ≤ remapBoundary c5WitnessDiff 0 5) ∧
    ((∀ u ∈ c5WitnessDiff.unchangedBlocks, ¬ u.oldIndex ≤ 0) →
      (modNewIndices c5WitnessDiff.changes 0 ≠ [] →
        (∃ v ∈ modNewIndices c5WitnessDiff.changes 0,
          remapBoundary c5WitnessDiff 0 5 = (v : Int)) ∧
        ∀ v ∈ modNewIndices c5WitnessDiff.changes 0,
          (v : Int) ≤ remapBoundary c5WitnessDiff 0 5) ∧
      (modNewIndices c5WitnessDiff.changes 0 = [] →
        remapBoundary c5WitnessDiff 0 5 = min (0 : Int) ((5 : Int) - 1))) :=
  remap_boundary_monotone c5WitnessDiff 0 5
    (fun c hc => absurd hc (List.not_mem_nil c))

/-! ## Claim C9: cache TTL -/

theorem lookupKey_eq_none_iff {β : Type} (k : String)
    (m : List (String × β)) :
    lookupKey k m = none ↔ k ∉ m.map (·.1) := by
  induction m with
  | nil => simp [lookupKey]
  | cons p ps ih =>
    simp only [lookupKey, List.map_cons, List.mem_cons]
    by_cases hp : p.1 = k
    · rw [if_pos hp]
      simp [hp]
    · rw [if_neg hp]
      rw [ih]
      constructor
      · intro h hk
        rcases hk with hk | hk
        · exact hp hk.symm
        · exact h hk
      · intro h hk
        exact h (Or.inr hk)

theorem mem_of_lookupKey {β : Type} (k : String) (m : List (String × β))
    (v : β) (h : lookupKey k m = some v) : (k, v) ∈ m := by
  induction m with
  | nil => simp [lookupKey] at h
  | cons p ps ih =>
    rw [lookupKey] at h
    by_cases hp : p.1 = k
    · rw [if_pos hp] at h
      obtain ⟨a, b⟩ := p
      simp only at hp
      subst hp
      simp only [Option.some_inj] at h
      subst h
      exact List.mem_cons_self _ _
    · rw [if_neg hp] at h
      exact List.mem_cons_of_mem _ (ih h)

theorem lookupKey_listSet_self {β : Type} (m : List (String × β))
    (k : String) (v : β) : lookupKey k (listSet m k v) = some v := by
  rw [listSet]
  split
  · rename_i hsome
    induction m with
    | nil => simp [lookupKey] at hsome
    | cons p ps ih =>
      simp only [List.map_cons, lookupKey]
      by_cases hp : p.1 = k
      · rw [if_pos hp]
        simp [lookupKey]
      · rw [if_neg hp]
        simp only [lookupKey, if_neg hp]
        apply ih
        rw [lookupKey, if_neg hp] at hsome
        exact hsome
  · induction m with
    | nil => simp [lookupKey]
    | cons p ps ih =>
      rename_i hnone
      by_cases hp : p.1 = k
      · exfalso
        apply hnone
        rw [lookupKey, if_pos hp]
        rfl
      · simp only [List.cons_append, lookupKey, if_neg hp]
        apply ih
        intro hsome
        apply hnone
        rw [lookupKey, if_neg hp]
        exact hsome

theorem listSet_keys_of_present {β : Type} (m : List (String × β))
    (k : String) (v : β) (h : (lookupKey k m).isSome = true) :
    (listSet m k v).map (·.1) = m.map (·.1) := by
  rw [listSet, if_pos h, List.map_map]
  apply List.map_congr_left
  intro p _
  by_cases hp : p.1 = k
  · simp [hp]
  · simp [hp]

theorem listSet_keys_of_absent {β : Type} (m : List (String × β))
    (k : String) (v : β) (h : ¬ (lookupKey k m).isSome = true) :
    (listSet m k v).map (·.1) = m.map (·.1) ++ [k] := by
  rw [listSet, if_neg h]
  simp

theorem listSet_keys_nodup {β : Type} (m : List (String × β)) (k : String)
    (v : β) (h : (m.map (·.1)).Nodup) : ((listSet m k v).map (·.1)).Nodup := by
  by_cases hk : (lookupKey k m).isSome = true
  · rw [listSet_keys_of_present m k v hk]
    exact h
  · rw [listSet_keys_of_absent m k v hk]
    have hnone : lookupKey k m = none := by
      rcases hl : lookupKey k m with _ | w
      · rfl
      · rw [hl] at hk; simp at hk
    have hnotmem : k ∉ m.map (·.1) := (lookupKey_eq_none_iff k m).1 hnone
    simp only [List.nodup_append, List.nodup_cons, List.nodup_nil]
    exact ⟨h, by simp, by simpa [List.disjoint_singleton] using hnotmem⟩

theorem lookupKey_eraseKey_self {β : Type} (k : String)
    (m : List (String × β)) (h : (m.map (·.1)).Nodup) :
    lookupKey k (eraseKey k m) = none := by
  induction m with
  | nil => simp [eraseKey, lookupKey]
  | cons p ps ih =>
    simp only [List.map_cons, List.nodup_cons] at h
    rw [eraseKey]
    by_cases hp : p.1 = k
    · rw [if_pos hp]
      rw [lookupKey_eq_none_iff]
      rw [hp] at h
      exact h.1
    · rw [if_neg hp]
      rw [lookupKey, if_neg hp]
      exact ih h.2

/-- The block-level entry for the given key pair is gone: either the outer
table no longer has the hash, or the surviving inner map no longer has the
language. -/
def blockEvicted (st : CacheState) (sourceHash targetLanguage : String) :
    Prop :=
  match lookupKey sourceHash st.blockCache with
  | none => True
  | some langMap => lookupKey targetLanguage langMap = none

/-- Claim C9 (cache TTL): in both cache tables an entry written at time `t`
is returned by a lookup at `t + ttl − 1` and is a miss — and is evicted by
that lookup — at `t + ttl + 1`, with the ttl fixed at 24 hours. -/
theorem cache_ttl (st : CacheState) (content translation : String)
    (sourceHash targetLanguage blockTranslation : String) (t : Nat)
    (hnd : KeysNodup st) :
    maxAge = 24 * 60 * 60 * 1000 ∧
    (cacheGet (cacheSet st content translation t) content (t + maxAge - 1)).1 =
      some translation ∧
    (cacheGet (cacheSet st content translation t) content (t + maxAge + 1)).1 =
      none ∧
    lookupKey (generateHash content)
      ((cacheGet (cacheSet st content translation t) content
        (t + maxAge + 1)).2).cache = none ∧
    (cacheGetBlock (cacheSetBlock st sourceHash targetLanguage blockTranslation t)
      sourceHash targetLanguage (t + maxAge - 1)).1 = some blockTranslation ∧
    (cacheGetBlock (cacheSetBlock st sourceHash targetLanguage blockTranslation t)
      sourceHash targetLanguage (t + maxAge + 1)).1 = none ∧
    blockEvicted
      ((cacheGetBlock (cacheSetBlock st sourceHash targetLanguage blockTranslation t)
        sourceHash targetLanguage (t + maxAge + 1)).2) sourceHash
      targetLanguage := by
  obtain ⟨hnd1, hnd2, hnd3⟩ := hnd
  have hM : maxAge = 86400000 := rfl
  have hfresh : ¬ (maxAge < (t + maxAge - 1) - t) := by omega
  have hstale : maxAge < (t + maxAge + 1) - t := by omega
  have hcache1 : (cacheSet st content translation t).cache =
      listSet st.cache (generateHash content)
        ⟨generateHash content, translation, t⟩ := rfl
  have hget1 : cacheGet (cacheSet st content translation t) content
      (t + maxAge - 1) = (some translation, cacheSet st content translation t) := by
    rw [cacheGet, hcache1, lookupKey_listSet_self]
    dsimp only
    rw [if_neg hfresh]
  have hget2 : cacheGet (cacheSet st content translation t) content
      (t + maxAge + 1) =
      (none, { cacheSet st content translation t with
               cache := eraseKey (generateHash content)
                 ((cacheSet st content translation t).cache) }) := by
    rw [cacheGet, hcache1, lookupKey_listSet_self]
    dsimp only
    rw [if_pos hstale]
  have hnodup1 : (((cacheSet st content translation t).cache).map (·.1)).Nodup := by
    rw [hcache1]
    exact listSet_keys_nodup _ _ _ hnd1
  -- block cache
  have hlm0 : (((lookupKey sourceHash st.blockCache).getD []).map (·.1)).Nodup := by
    rcases hl : lookupKey sourceHash st.blockCache with _ | lm
    · simp
    · simpa using hnd3 (sourceHash, lm) (mem_of_lookupKey _ _ _ hl)
  have hbc : (cacheSetBlock st sourceHash targetLanguage blockTranslation t).blockCache =
      listSet st.blockCache sourceHash
        (listSet ((lookupKey sourceHash st.blockCache).getD [])
          targetLanguage ⟨blockTranslation, t⟩) := rfl
  have hlmnodup : ((listSet ((lookupKey sourceHash st.blockCache).getD [])
      targetLanguage (⟨blockTranslation, t⟩ : BlockCacheEntry)).map (·.1)).Nodup :=
    listSet_keys_nodup _ _ _ hlm0
  have hbcnodup : (((cacheSetBlock st sourceHash targetLanguage blockTranslation t).blockCache).map (·.1)).Nodup := by
    rw [hbc]
    exact listSet_keys_nodup _ _ _ hnd2
  have hgb1 : cacheGetBlock
      (cacheSetBlock st sourceHash targetLanguage blockTranslation t)
      sourceHash targetLanguage (t + maxAge - 1) =
      (some blockTranslation,
       cacheSetBlock st sourceHash targetLanguage blockTranslation t) := by
    rw [cacheGetBlock, hbc, lookupKey_listSet_self]
    dsimp only
    rw [lookupKey_listSet_self]
    dsimp only
    rw [if_neg hfresh]
  refine ⟨rfl, by rw [hget1], by rw [hget2], ?_, by rw [hgb1], ?_, ?_⟩
  · rw [hget2]
    exact lookupKey_eraseKey_self _ _ hnodup1
  · rw [cacheGetBlock, hbc, lookupKey_listSet_self]
    dsimp only
    rw [lookupKey_listSet_self]
    dsimp only
    rw [if_pos hstale]
  · rw [cacheGetBlock, hbc, lookupKey_listSet_self]
    dsimp only
    rw [lookupKey_listSet_self]
    dsimp only
    rw [if_pos hstale]
    dsimp only [blockEvicted]
    by_cases hlen : (eraseKey targetLanguage
        (listSet ((lookupKey sourceHash st.blockCache).getD [])
          targetLanguage ⟨blockTranslation, t⟩)).length = 0
    · rw [if_pos hlen]
      have herase : lookupKey sourceHash
          (eraseKey sourceHash
            (cacheSetBlock st sourceHash targetLanguage blockTranslation t).blockCache) =
          none := lookupKey_eraseKey_self _ _ hbcnodup
      rw [hbc] at herase
      rw [herase]
      trivial
    · rw [if_neg hlen]
      rw [lookupKey_listSet_self]
      exact lookupKey_eraseKey_self _ _ hlmnodup

/-- Witness for `cache_ttl` on the empty cache state. -/
theorem cache_ttl_witness :
    maxAge = 24 * 60 * 60 * 1000 ∧
    (cacheGet (cacheSet ⟨[], []⟩ "doc" "tr" 5) "doc" (5 + maxAge - 1)).1 =
      some "tr" ∧
    (cacheGet (cacheSet ⟨[], []⟩ "doc" "tr" 5) "doc" (5 + maxAge + 1)).1 =
      none ∧
    lookupKey (generateHash "doc")
      ((cacheGet (cacheSet ⟨[], []⟩ "doc" "tr" 5) "doc"
        (5 + maxAge + 1)).2).cache = none ∧
    (cacheGetBlock (cacheSetBlock ⟨[], []⟩ "h" "ja" "btr" 5) "h" "ja"
      (5 + maxAge - 1)).1 = some "btr" ∧
    (cacheGetBlock (cacheSetBlock ⟨[], []⟩ "h" "ja" "btr" 5) "h" "ja"
      (5 + maxAge + 1)).1 = none ∧
    blockEvicted
      ((cacheGetBlock (cacheSetBlock ⟨[], []⟩ "h" "ja" "btr" 5) "h" "ja"
        (5 + maxAge + 1)).2) "h" "ja" :=
  cache_ttl ⟨[], []⟩ "doc" "tr" "h" "ja" "btr" 5
    ⟨List.nodup_nil, List.nodup_nil, fun p hp => absurd hp (List.not_mem_nil p)⟩

/-! ## Claims C2 and C8: diff engine invariants -/

theorem contains_eq_false_iff (l : List Nat) (a : Nat) :
    l.contains a = false ↔ a ∉ l := by
  simp [List.contains, List.elem_eq_mem]

theorem contains_eq_true_iff (l : List Nat) (a : Nat) :
    l.contains a = true ↔ a ∈ l := by
  simp [List.contains, List.elem_eq_mem]

theorem hashMatchStep_pred (matchedOld : List Nat) (newIndex : Nat)
    (cands : List MarkdownBlock) :
    ∀ (best : Option (MarkdownBlock × Nat)),
      (∀ p, best = some p → p.1.index ∉ matchedOld) →
      ∀ p, cands.foldl (hashMatchStep matchedOld newIndex) best = some p →
        p.1.index ∉ matchedOld := by
  induction cands with
  | nil => intro best hbest p hp; exact hbest p hp
  | cons ob rest ih =>
    intro best hbest p hp
    rw [List.foldl_cons] at hp
    refine ih (hashMatchStep matchedOld newIndex best ob) ?_ p hp
    intro q hq
    rw [hashMatchStep] at hq
    by_cases hc : matchedOld.contains ob.index
    · rw [if_pos hc] at hq
      exact hbest q hq
    · rw [if_neg hc] at hq
      have hob : ob.index ∉ matchedOld := by
        rw [← contains_eq_false_iff]
        exact Bool.not_eq_true _ ▸ (by simpa using hc)
      rcases hb : best with _ | ⟨b, bd⟩ <;> rw [hb] at hq
      · simp only [Option.some_inj] at hq
        rw [← hq]
        exact hob
      · dsimp only at hq
        split at hq <;> simp only [Option.some_inj] at hq <;> rw [← hq]
        · exact hob
        · exact hbest (b, bd) hb

theorem bestHashMatch_not_matched (cands : List MarkdownBlock)
    (matchedOld : List Nat) (newIndex : Nat) (ob : MarkdownBlock)
    (h : bestHashMatch cands matchedOld newIndex = some ob) :
    ob.index ∉ matchedOld := by
  rw [bestHashMatch] at h
  rcases hf : cands.foldl (hashMatchStep matchedOld newIndex) none with _ | p
  · rw [hf] at h; exact Option.noConfusion h
  · rw [hf] at h
    simp only [Option.map_some', Option.some_inj] at h
    rw [← h]
    exact hashMatchStep_pred matchedOld newIndex cands none (by simp) p hf

/-- The properties guaranteed for a phase-2 fuzzy pick with respect to the
target new block. -/
def FuzzyOk (unmatchedOld : List MarkdownBlock) (matchedOld : List Nat)
    (nb : MarkdownBlock) (ob : MarkdownBlock) : Prop :=
  ob.index ∉ matchedOld ∧ ob.type = nb.type ∧
  natDist ob.index nb.index ≤ 3 ∧ ob ∈ unmatchedOld

theorem fuzzyMatchStep_pred (matchedOld : List Nat) (nb : MarkdownBlock)
    (big : List MarkdownBlock) :
    ∀ (l : List MarkdownBlock) (best : Option (MarkdownBlock × Nat)),
      (∀ x ∈ l, x ∈ big) →
      (∀ p, best = some p → FuzzyOk big matchedOld nb p.1) →
      ∀ p, l.foldl (fuzzyMatchStep matchedOld nb) best = some p →
        FuzzyOk big matchedOld nb p.1 := by
  intro l
  induction l with
  | nil => intro best _ hbest p hp; exact hbest p hp
  | cons ob rest ih =>
    intro best hsub hbest p hp
    rw [List.foldl_cons] at hp
    refine ih (fuzzyMatchStep matchedOld nb best ob)
      (fun x hx => hsub x (by simp [hx])) ?_ p hp
    intro q hq
    rw [fuzzyMatchStep.eq_def] at hq
    by_cases hc : (!(matchedOld.contains ob.index) && ob.type = nb.type) = true
    · rw [if_pos hc] at hq
      simp only [Bool.and_eq_true, Bool.not_eq_eq_eq_not, Bool.not_true,
        decide_eq_true_eq] at hc
      dsimp only at hq
      split at hq
      · rename_i hcond
        simp only [Bool.and_eq_true, decide_eq_true_eq] at hcond
        simp only [Option.some_inj] at hq
        rw [← hq]
        exact ⟨(contains_eq_false_iff _ _).1 hc.1, hc.2, hcond.2,
          hsub ob (by simp)⟩
      · exact hbest q hq
    · rw [if_neg hc] at hq
      exact hbest q hq

theorem bestFuzzyMatch_spec (unmatchedOld : List MarkdownBlock)
    (matchedOld : List Nat) (nb : MarkdownBlock) (ob : MarkdownBlock)
    (h : bestFuzzyMatch unmatchedOld matchedOld nb = some ob) :
    FuzzyOk unmatchedOld matchedOld nb ob := by
  rw [bestFuzzyMatch] at h
  rcases hf : unmatchedOld.foldl (fuzzyMatchStep matchedOld nb) none with _ | p
  · rw [hf] at h; exact Option.noConfusion h
  · rw [hf] at h
    simp only [Option.map_some', Option.some_inj] at h
    rw [← h]
    exact fuzzyMatchStep_pred matchedOld nb unmatchedOld unmatchedOld none
      (fun x hx => hx) (by simp) p hf

theorem phase1_spec (oldDoc : ParsedDocument) :
    ∀ (nbs : List MarkdownBlock) (st : DiffState),
      ∃ adds : List UnchangedBlock,
        phase1 oldDoc nbs st =
          { matchedOld := st.matchedOld ++ adds.map (·.oldIndex),
            matchedNew := st.matchedNew ++ adds.map (·.newIndex),
            unchanged := st.unchanged ++ adds,
            changes := st.changes } := by
  intro nbs
  induction nbs with
  | nil => intro st; exact ⟨[], by simp [phase1]⟩
  | cons nb rest ih =>
    intro st
    rw [phase1]
    rcases hl : lookupKey nb.hash oldDoc.blocksByHash with _ | cands
    · dsimp only
      exact ih st
    · dsimp only
      rcases hb : bestHashMatch cands st.matchedOld nb.index with _ | ob
      · exact ih st
      · dsimp only
        obtain ⟨adds, hadds⟩ := ih
          { st with matchedOld := st.matchedOld ++ [ob.index],
                    matchedNew := st.matchedNew ++ [nb.index],
                    unchanged := st.unchanged ++ [⟨ob.index, nb.index, nb⟩] }
        refine ⟨⟨ob.index, nb.index, nb⟩ :: adds, ?_⟩
        rw [hadds]
        simp

theorem phase2_spec (unmatchedOld : List MarkdownBlock) :
    ∀ (nbs : List MarkdownBlock) (st : DiffState),
      ∃ pairs : List (MarkdownBlock × MarkdownBlock),
        phase2 unmatchedOld nbs st =
          { matchedOld := st.matchedOld ++ pairs.map (·.1.index),
            matchedNew := st.matchedNew ++ pairs.map (·.2.index),
            unchanged := st.unchanged,
            changes := st.changes ++ pairs.map (fun p => mkModified p.1 p.2) } ∧
        ∀ p ∈ pairs, p.1.type = p.2.type ∧ natDist p.1.index p.2.index ≤ 3 ∧
          p.1 ∈ unmatchedOld ∧ p.2 ∈ nbs := by
  intro nbs
  induction nbs with
  | nil =>
    intro st
    refine ⟨[], by simp [phase2], by simp⟩
  | cons nb rest ih =>
    intro st
    rw [phase2]
    rcases hb : bestFuzzyMatch unmatchedOld st.matchedOld nb with _ | ob
    · dsimp only
      obtain ⟨pairs, heq, hprops⟩ := ih st
      refine ⟨pairs, heq, fun p hp => ?_⟩
      obtain ⟨h1, h2, h3, h4⟩ := hprops p hp
      exact ⟨h1, h2, h3, by simp [h4]⟩
    · dsimp only
      obtain ⟨hok1, hok2, hok3, hok4⟩ := bestFuzzyMatch_spec _ _ _ _ hb
      obtain ⟨pairs, heq, hprops⟩ := ih
        { st with matchedOld := st.matchedOld ++ [ob.index],
                  matchedNew := st.matchedNew ++ [nb.index],
                  changes := st.changes ++ [mkModified ob nb] }
      refine ⟨(ob, nb) :: pairs, ?_, ?_⟩
      · rw [heq]
        simp
      · intro p hp
        rcases List.mem_cons.1 hp with hp | hp
        · subst hp
          exact ⟨hok2, hok3, hok4, by simp⟩
        · obtain ⟨h1, h2, h3, h4⟩ := hprops p hp
          exact ⟨h1, h2, h3, by simp [h4]⟩

theorem nodup_append_singleton {α : Type} (l : List α) (a : α)
    (h : l.Nodup) (ha : a ∉ l) : (l ++ [a]).Nodup := by
  rw [List.nodup_append]
  exact ⟨h, List.nodup_singleton a, by simpa [List.disjoint_singleton] using ha⟩

theorem phase1_matchedOld_nodup (oldDoc : ParsedDocument) :
    ∀ (nbs : List MarkdownBlock) (st : DiffState), st.matchedOld.Nodup →
      (phase1 oldDoc nbs st).matchedOld.Nodup := by
  intro nbs
  induction nbs with
  | nil => intro st h; simpa [phase1] using h
  | cons nb rest ih =>
    intro st h
    rw [phase1]
    rcases hl : lookupKey nb.hash oldDoc.blocksByHash with _ | cands
    · dsimp only; exact ih st h
    · dsimp only
      rcases hb : bestHashMatch cands st.matchedOld nb.index with _ | ob
      · exact ih st h
      · refine ih _ ?_
        exact nodup_append_singleton _ _ h
          (bestHashMatch_not_matched _ _ _ _ hb)

theorem phase2_matchedOld_nodup (unmatchedOld : List MarkdownBlock) :
    ∀ (nbs : List MarkdownBlock) (st : DiffState), st.matchedOld.Nodup →
      (phase2 unmatchedOld nbs st).matchedOld.Nodup := by
  intro nbs
  induction nbs with
  | nil => intro st h; simpa [phase2] using h
  | cons nb rest ih =>
    intro st h
    rw [phase2]
    rcases hb : bestFuzzyMatch unmatchedOld st.matchedOld nb with _ | ob
    · dsimp only; exact ih st h
    · dsimp only
      exact ih _ (nodup_append_singleton _ _ h
        (bestFuzzyMatch_spec _ _ _ _ hb).1)

theorem phase1_matchedNew_nodup (oldDoc : ParsedDocument) :
    ∀ (nbs : List MarkdownBlock) (st : DiffState),
      (nbs.map (·.index)).Nodup →
      (∀ x ∈ st.matchedNew, x ∉ nbs.map (·.index)) → st.matchedNew.Nodup →
      (phase1 oldDoc nbs st).matchedNew.Nodup := by
  intro nbs
  induction nbs with
  | nil => intro st _ _ h; simpa [phase1] using h
  | cons nb rest ih =>
    intro st hdense hdisj h
    simp only [List.map_cons, List.nodup_cons] at hdense
    rw [phase1]
    rcases hl : lookupKey nb.hash oldDoc.blocksByHash with _ | cands
    · dsimp only
      exact ih st hdense.2
        (fun x hx => fun hm => hdisj x hx (by simp [hm])) h
    · dsimp only
      rcases hb : bestHashMatch cands st.matchedOld nb.index with _ | ob
      · exact ih st hdense.2
          (fun x hx => fun hm => hdisj x hx (by simp [hm])) h
      · refine ih _ hdense.2 ?_ ?_
        · intro x hx
          rcases List.mem_append.1 hx with hx | hx
          · exact fun hm => hdisj x hx (by simp [hm])
          · simp only [List.mem_singleton] at hx
            subst hx
            exact hdense.1
        · exact nodup_append_singleton _ _ h
            (fun hm => hdisj nb.index hm (by simp))

theorem phase2_matchedNew_nodup (unmatchedOld : List MarkdownBlock) :
    ∀ (nbs : List MarkdownBlock) (st : DiffState),
      (nbs.map (·.index)).Nodup →
      (∀ x ∈ st.matchedNew, x ∉ nbs.map (·.index)) → st.matchedNew.Nodup →
      (phase2 unmatchedOld nbs st).matchedNew.Nodup := by
  intro nbs
  induction nbs with
  | nil => intro st _ _ h; simpa [phase2] using h
  | cons nb rest ih =>
    intro st hdense hdisj h
    simp only [List.map_cons, List.nodup_cons] at hdense
    rw [phase2]
    rcases hb : bestFuzzyMatch unmatchedOld st.matchedOld nb with _ | ob
    · dsimp only
      exact ih st hdense.2
        (fun x hx => fun hm => hdisj x hx (by simp [hm])) h
    · dsimp only
      refine ih _ hdense.2 ?_ ?_
      · intro x hx
        rcases List.mem_append.1 hx with hx | hx
        · exact fun hm => hdisj x hx (by simp [hm])
        · simp only [List.mem_singleton] at hx
          subst hx
          exact hdense.1
      · exact nodup_append_singleton _ _ h
          (fun hm => hdisj nb.index hm (by simp))

theorem insertSorted_perm (c : BlockChange) :
    ∀ l : List BlockChange, (insertSorted c l).Perm (c :: l) := by
  intro l
  induction l with
  | nil => exact List.Perm.refl _
  | cons x xs ih =>
    rw [insertSorted]
    split
    · exact List.Perm.trans (List.Perm.cons x ih) (List.Perm.swap c x xs)
    · exact List.Perm.refl _

theorem sortChanges_perm_aux :
    ∀ (l acc : List BlockChange),
      (l.foldl (fun acc c => insertSorted c acc) acc).Perm (l ++ acc) := by
  intro l
  induction l with
  | nil => intro acc; simp
  | cons c rest ih =>
    intro acc
    rw [List.foldl_cons]
    refine List.Perm.trans (ih (insertSorted c acc)) ?_
    refine List.Perm.trans (List.Perm.append_left rest (insertSorted_perm c acc)) ?_
    exact List.perm_middle

theorem sortChanges_perm (l : List BlockChange) : (sortChanges l).Perm l := by
  simpa using sortChanges_perm_aux l []

theorem countP_eq_one_of_nodup_mem (l : List Nat) (j : Nat) (h : l.Nodup)
    (hm : j ∈ l) : l.countP (fun x => decide (x = j)) = 1 := by
  induction l with
  | nil => exact absurd hm (List.not_mem_nil j)
  | cons x xs ih =>
    rw [List.countP_cons]
    simp only [List.nodup_cons] at h
    rcases List.mem_cons.1 hm with hm | hm
    · subst hm
      have hz : xs.countP (fun y => decide (y = j)) = 0 := by
        rw [List.countP_eq_zero]
        intro a ha
        simp only [decide_eq_true_eq]
        intro he
        subst he
        exact h.1 ha
      simp [hz]
    · have hx : ¬ (x = j) := by
        intro he
        subst he
        exact h.1 hm
      rw [ih h.2 hm]
      simp [hx]

theorem countP_eq_zero_of_not_mem (l : List Nat) (j : Nat) (hm : j ∉ l) :
    l.countP (fun x => decide (x = j)) = 0 := by
  rw [List.countP_eq_zero]
  intro a ha
  simp only [decide_eq_true_eq]
  intro he
  subst he
  exact hm ha

/-- Core partition count: for a dense-indexed block list and a duplicate-free
matched-index set, each valid index is counted exactly once between the
matched set and the unmatched leftovers. -/
theorem partition_count (blocks : List MarkdownBlock) (matched : List Nat)
    (j : Nat) (hnodup : matched.Nodup)
    (hdense : blocks.map (·.index) = List.range blocks.length)
    (hj : j < blocks.length) :
    matched.countP (fun x => decide (x = j)) +
      (blocks.filter (fun b => !(matched.contains b.index))).countP
        (fun b => decide (b.index = j)) = 1 := by
  by_cases hjm : j ∈ matched
  · rw [countP_eq_one_of_nodup_mem matched j hnodup hjm]
    have hz : (blocks.filter (fun b => !(matched.contains b.index))).countP
        (fun b => decide (b.index = j)) = 0 := by
      rw [List.countP_filter, List.countP_eq_zero]
      intro b _
      simp only [Bool.and_eq_true, decide_eq_true_eq, Bool.not_eq_eq_eq_not,
        Bool.not_true]
      rintro ⟨he, hc⟩
      rw [he] at hc
      rw [contains_eq_false_iff] at hc
      exact hc hjm
    rw [hz]
  · rw [countP_eq_zero_of_not_mem matched j hjm]
    have hc : (blocks.filter (fun b => !(matched.contains b.index))).countP
        (fun b => decide (b.index = j)) =
        blocks.countP (fun b => decide (b.index = j)) := by
      rw [List.countP_filter]
      apply List.countP_congr
      intro b _
      simp only [Bool.and_eq_true, decide_eq_true_eq, Bool.not_eq_eq_eq_not,
        Bool.not_true]
      constructor
      · rintro ⟨he, _⟩
        exact he
      · intro he
        refine ⟨he, ?_⟩
        rw [he, contains_eq_false_iff]
        exact hjm
    rw [hc]
    have hmap : blocks.countP (fun b => decide (b.index = j)) =
        (blocks.map (·.index)).countP (fun x => decide (x = j)) := by
      rw [List.countP_map]
      rfl
    rw [Nat.zero_add, hmap, hdense]
    exact countP_eq_one_of_nodup_mem _ _ (List.nodup_range _)
      (List.mem_range.2 hj)

theorem oldSide_pieces (blocks : List MarkdownBlock) (MO : List Nat)
    (adds : List UnchangedBlock)
    (pairs : List (MarkdownBlock × MarkdownBlock))
    (addedL : List BlockChange) (j : Nat)
    (hMO : MO = adds.map (·.oldIndex) ++ pairs.map (·.1.index))
    (hnodup : MO.Nodup)
    (haddedL : ∀ c ∈ addedL, c.type = ChangeType.added)
    (hdense : blocks.map (·.index) = List.range blocks.length)
    (hj : j < blocks.length) :
    (adds.filter (fun u => u.oldIndex = j)).length +
      ((pairs.map (fun p => mkModified p.1 p.2) ++
        (blocks.filter (fun b => !(MO.contains b.index))).map mkRemoved ++
        addedL).filter
          (fun c => (c.type = ChangeType.removed ∨
            c.type = ChangeType.modified) ∧ c.oldIndex = some j)).length = 1 := by
  have h1 : (adds.filter (fun u => u.oldIndex = j)).length =
      (adds.map (·.oldIndex)).countP (fun x => decide (x = j)) := by
    rw [← List.countP_eq_length_filter, List.countP_map]
    rfl
  have h2 : ((pairs.map (fun p => mkModified p.1 p.2)).filter
      (fun c => (c.type = ChangeType.removed ∨
        c.type = ChangeType.modified) ∧ c.oldIndex = some j)).length =
      (pairs.map (·.1.index)).countP (fun x => decide (x = j)) := by
    rw [← List.countP_eq_length_filter, List.countP_map, List.countP_map]
    apply List.countP_congr
    intro p _
    simp [mkModified]
  have h3 : (((blocks.filter (fun b => !(MO.contains b.index))).map
      mkRemoved).filter
      (fun c => (c.type = ChangeType.removed ∨
        c.type = ChangeType.modified) ∧ c.oldIndex = some j)).length =
      (blocks.filter (fun b => !(MO.contains b.index))).countP
        (fun b => decide (b.index = j)) := by
    rw [← List.countP_eq_length_filter, List.countP_map]
    apply List.countP_congr
    intro b _
    simp [mkRemoved]
  have h4 : (addedL.filter
      (fun c => (c.type = ChangeType.removed ∨
        c.type = ChangeType.modified) ∧ c.oldIndex = some j)).length = 0 := by
    rw [← List.countP_eq_length_filter, List.countP_eq_zero]
    intro c hc
    have hty := haddedL c hc
    simp [hty]
  rw [List.filter_append, List.filter_append, List.length_append,
    List.length_append, h1, h2, h3, h4]
  have hsum : (adds.map (·.oldIndex)).countP (fun x => decide (x = j)) +
      (pairs.map (·.1.index)).countP (fun x => decide (x = j)) =
      MO.countP (fun x => decide (x = j)) := by
    rw [hMO, List.countP_append]
  have hp := partition_count blocks MO j hnodup hdense hj
  omega

theorem newSide_pieces (blocks : List MarkdownBlock) (MN : List Nat)
    (adds : List UnchangedBlock)
    (pairs : List (MarkdownBlock × MarkdownBlock))
    (removedL : List BlockChange) (k : Nat)
    (hMN : MN = adds.map (·.newIndex) ++ pairs.map (·.2.index))
    (hnodup : MN.Nodup)
    (hremovedL : ∀ c ∈ removedL, c.type = ChangeType.removed)
    (hdense : blocks.map (·.index) = List.range blocks.length)
    (hk : k < blocks.length) :
    (adds.filter (fun u => u.newIndex = k)).length +
      ((pairs.map (fun p => mkModified p.1 p.2) ++ removedL ++
        (blocks.filter (fun b => !(MN.contains b.index))).map mkAdded).filter
          (fun c => (c.type = ChangeType.added ∨
            c.type = ChangeType.modified) ∧ c.newIndex = some k)).length = 1 := by
  have h1 : (adds.filter (fun u => u.newIndex = k)).length =
      (adds.map (·.newIndex)).countP (fun x => decide (x = k)) := by
    rw [← List.countP_eq_length_filter, List.countP_map]
    rfl
  have h2 : ((pairs.map (fun p => mkModified p.1 p.2)).filter
      (fun c => (c.type = ChangeType.added ∨
        c.type = ChangeType.modified) ∧ c.newIndex = some k)).length =
      (pairs.map (·.2.index)).countP (fun x => decide (x = k)) := by
    rw [← List.countP_eq_length_filter, List.countP_map, List.countP_map]
    apply List.countP_congr
    intro p _
    simp [mkModified]
  have h3 : (((blocks.filter (fun b => !(MN.contains b.index))).map
      mkAdded).filter
      (fun c => (c.type = ChangeType.added ∨
        c.type = ChangeType.modified) ∧ c.newIndex = some k)).length =
      (blocks.filter (fun b => !(MN.contains b.index))).countP
        (fun b => decide (b.index = k)) := by
    rw [← List.countP_eq_length_filter, List.countP_map]
    apply List.countP_congr
    intro b _
    simp [mkAdded]
  have h4 : (removedL.filter
      (fun c => (c.type = ChangeType.added ∨
        c.type = ChangeType.modified) ∧ c.newIndex = some k)).length = 0 := by
    rw [← List.countP_eq_length_filter, List.countP_eq_zero]
    intro c hc
    have hty := hremovedL c hc
    simp [hty]
  rw [List.filter_append, List.filter_append, List.length_append,
    List.length_append, h2, h3, h4, h1]
  have hsum : (adds.map (·.newIndex)).countP (fun x => decide (x = k)) +
      (pairs.map (·.2.index)).countP (fun x => decide (x = k)) =
      MN.countP (fun x => decide (x = k)) := by
    rw [hMN, List.countP_append]
  have hp := partition_count blocks MN k hnodup hdense hk
  omega

/-- How many times old index `j` is accounted for in a diff: once per
unchanged entry with that old index plus once per removed/modified change
with that old index. -/
def oldSideCount (d : BlockDiff) (j : Nat) : Nat :=
  (d.unchangedBlocks.filter (fun u => u.oldIndex = j)).length +
  (d.changes.filter
    (fun c => (c.type = ChangeType.removed ∨
      c.type = ChangeType.modified) ∧ c.oldIndex = some j)).length

/-- How many times new index `k` is accounted for in a diff: once per
unchanged entry with that new index plus once per added/modified change
with that new index. -/
def newSideCount (d : BlockDiff) (k : Nat) : Nat :=
  (d.unchangedBlocks.filter (fun u => u.newIndex = k)).length +
  (d.changes.filter
    (fun c => (c.type = ChangeType.added ∨
      c.type = ChangeType.modified) ∧ c.newIndex = some k)).length

theorem filter_sort_length (p : BlockChange → Bool) (l : List BlockChange) :
    ((sortChanges l).filter p).length = (l.filter p).length := by
  rw [← List.countP_eq_length_filter, ← List.countP_eq_length_filter]
  exact (sortChanges_perm l).countP_eq p

set_option maxHeartbeats 1600000 in
/-- Claim C2 (diff completeness): in every BlockDiff the diff engine
returns, every block index of the old document appears exactly once across
the unchanged list and the removed/modified changes, and every block index
of the new document appears exactly once across the unchanged list and the
added/modified changes. -/
theorem diff_completeness (oldText newContent : String) (d : BlockDiff)
    (h : detectBlockChangesInternal (parseMarkdownToBlocks oldText)
      newContent = some d) :
    (∀ j, j < (parseMarkdownToBlocks oldText).blocks.length →
      oldSideCount d j = 1) ∧
    (∀ k, k < (parseMarkdownToBlocks newContent).blocks.length →
      newSideCount d k = 1) := by
  have hdenseO : (parseMarkdownToBlocks oldText).blocks.map (·.index) =
      List.range (parseMarkdownToBlocks oldText).blocks.length :=
    parseLines_dense (splitLines oldText)
  have hdenseN : (parseMarkdownToBlocks newContent).blocks.map (·.index) =
      List.range (parseMarkdownToBlocks newContent).blocks.length :=
    parseLines_dense (splitLines newContent)
  simp only [detectBlockChangesInternal] at h
  split at h
  · exact absurd h (by simp)
  · split at h
    · exact absurd h (by simp)
    · simp only [Option.some_inj] at h
      obtain ⟨adds, hs1⟩ := phase1_spec (parseMarkdownToBlocks oldText)
        (parseMarkdownToBlocks newContent).blocks ⟨[], [], [], []⟩
      have hs1' : phase1State (parseMarkdownToBlocks oldText)
          (parseMarkdownToBlocks newContent) =
          ⟨adds.map (·.oldIndex), adds.map (·.newIndex), adds, []⟩ := by
        rw [phase1State, hs1]
        simp
      obtain ⟨pairs, hs2, hprops⟩ := phase2_spec
        (unmatchedOldBlocks (parseMarkdownToBlocks oldText)
          (parseMarkdownToBlocks newContent))
        (unmatchedNewBlocks (parseMarkdownToBlocks oldText)
          (parseMarkdownToBlocks newContent))
        (phase1State (parseMarkdownToBlocks oldText)
          (parseMarkdownToBlocks newContent))
      rw [hs1'] at hs2
      have hs2' : phase2
          (unmatchedOldBlocks (parseMarkdownToBlocks oldText)
            (parseMarkdownToBlocks newContent))
          (unmatchedNewBlocks (parseMarkdownToBlocks oldText)
            (parseMarkdownToBlocks newContent))
          (phase1State (parseMarkdownToBlocks oldText)
            (parseMarkdownToBlocks newContent)) =
          ⟨adds.map (·.oldIndex) ++ pairs.map (·.1.index),
           adds.map (·.newIndex) ++ pairs.map (·.2.index),
           adds, pairs.map (fun p => mkModified p.1 p.2)⟩ := by
        rw [hs1', hs2]
        simp
      have hMOnodup : ((adds.map (·.oldIndex) ++
          pairs.map (·.1.index)) : List Nat).Nodup := by
        have hh := phase2_matchedOld_nodup
          (unmatchedOldBlocks (parseMarkdownToBlocks oldText)
            (parseMarkdownToBlocks newContent))
          (unmatchedNewBlocks (parseMarkdownToBlocks oldText)
            (parseMarkdownToBlocks newContent))
          (phase1State (parseMarkdownToBlocks oldText)
            (parseMarkdownToBlocks newContent))
          (phase1_matchedOld_nodup (parseMarkdownToBlocks oldText)
            (parseMarkdownToBlocks newContent).blocks ⟨[], [], [], []⟩
            List.nodup_nil)
        rw [hs2'] at hh
        exact hh
      have hdenseNnodup : ((parseMarkdownToBlocks newContent).blocks.map
          (·.index)).Nodup := by
        rw [hdenseN]
        exact List.nodup_range _
      have hs1N : (phase1State (parseMarkdownToBlocks oldText)
          (parseMarkdownToBlocks newContent)).matchedNew.Nodup :=
        phase1_matchedNew_nodup (parseMarkdownToBlocks oldText)
          (parseMarkdownToBlocks newContent).blocks ⟨[], [], [], []⟩
          hdenseNnodup (by simp) List.nodup_nil
      have hunN : ((unmatchedNewBlocks (parseMarkdownToBlocks oldText)
          (parseMarkdownToBlocks newContent)).map (·.index)).Nodup := by
        refine hdenseNnodup.sublist ?_
        exact (List.filter_sublist _).map _
      have hdisjN : ∀ x ∈ (phase1State (parseMarkdownToBlocks oldText)
          (parseMarkdownToBlocks newContent)).matchedNew,
          x ∉ (unmatchedNewBlocks (parseMarkdownToBlocks oldText)
            (parseMarkdownToBlocks newContent)).map (·.index) := by
        intro x hx hmem
        rw [List.mem_map] at hmem
        obtain ⟨b, hb, hbx⟩ := hmem
        rw [unmatchedNewBlocks, List.mem_filter] at hb
        have hb2 := hb.2
        rw [hbx] at hb2
        simp only [Bool.not_eq_eq_eq_not, Bool.not_true,
          contains_eq_false_iff] at hb2
        exact hb2 hx
      have hMNnodup : ((adds.map (·.newIndex) ++
          pairs.map (·.2.index)) : List Nat).Nodup := by
        have hh := phase2_matchedNew_nodup
          (unmatchedOldBlocks (parseMarkdownToBlocks oldText)
            (parseMarkdownToBlocks newContent))
          (unmatchedNewBlocks (parseMarkdownToBlocks oldText)
            (parseMarkdownToBlocks newContent))
          (phase1State (parseMarkdownToBlocks oldText)
            (parseMarkdownToBlocks newContent))
          hunN hdisjN hs1N
        rw [hs2'] at hh
        exact hh
      rw [hs2'] at h
      constructor
      · intro j hj
        rw [← h, oldSideCount]
        dsimp only
        rw [filter_sort_length]
        exact oldSide_pieces (parseMarkdownToBlocks oldText).blocks
          (adds.map (·.oldIndex) ++ pairs.map (·.1.index)) adds pairs
          (((parseMarkdownToBlocks newContent).blocks.filter
            (fun nb => !((adds.map (·.newIndex) ++
              pairs.map (·.2.index)).contains nb.index))).map mkAdded)
          j rfl hMOnodup
          (by
            intro c hc
            rw [List.mem_map] at hc
            obtain ⟨b, _, hbc⟩ := hc
            rw [← hbc]
            rfl)
          hdenseO hj
      · intro k hk
        rw [← h, newSideCount]
        dsimp only
        rw [filter_sort_length]
        exact newSide_pieces (parseMarkdownToBlocks newContent).blocks
          (adds.map (·.newIndex) ++ pairs.map (·.2.index)) adds pairs
          (((parseMarkdownToBlocks oldText).blocks.filter
            (fun ob => !((adds.map (·.oldIndex) ++
              pairs.map (·.1.index)).contains ob.index))).map mkRemoved)
          k rfl hMNnodup
          (by
            intro c hc
            rw [List.mem_map] at hc
            obtain ⟨b, _, hbc⟩ := hc
            rw [← hbc]
            rfl)
          hdenseN hk

/-- A concrete diff for witnesses: the diff of `"a"` against `"b"` (one
paragraph block modified in place). -/
def c2WitnessDiff : BlockDiff :=
  (detectBlockChangesInternal (parseMarkdownToBlocks "a") "b").getD
    ⟨false, [], [], ""⟩

/-- Witness for `diff_completeness` on the one-paragraph edit. -/
theorem diff_completeness_witness :
    (∀ j, j < (parseMarkdownToBlocks "a").blocks.length →
      oldSideCount c2WitnessDiff j = 1) ∧
    (∀ k, k < (parseMarkdownToBlocks "b").blocks.length →
      newSideCount c2WitnessDiff k = 1) :=
  diff_completeness "a" "b" c2WitnessDiff rfl

theorem phase1State_changes (oldDocument newDocument : ParsedDocument) :
    (phase1State oldDocument newDocument).changes = [] := by
  obtain ⟨adds, hs1⟩ := phase1_spec oldDocument newDocument.blocks
    ⟨[], [], [], []⟩
  rw [phase1State, hs1]

set_option maxHeartbeats 800000 in
/-- Claim C8 (fuzzy-match bound): every `modified` change the diff engine
emits pairs an old and a new block of the same kind, both left unmatched by
phase-1 exact hash matching, whose index distance is at most 3; no other
modified pairing is ever emitted. -/
theorem fuzzy_match_bound (oldText newContent : String) (d : BlockDiff)
    (h : detectBlockChangesInternal (parseMarkdownToBlocks oldText)
      newContent = some d) :
    ∀ c ∈ d.changes, c.type = ChangeType.modified →
      ∃ ob nb : MarkdownBlock,
        c.oldBlock = some ob ∧ c.newBlock = some nb ∧
        c.oldIndex = some ob.index ∧ c.newIndex = some nb.index ∧
        ob.type = nb.type ∧ natDist ob.index nb.index ≤ 3 ∧
        ob ∈ unmatchedOldBlocks (parseMarkdownToBlocks oldText)
          (parseMarkdownToBlocks newContent) ∧
        nb ∈ unmatchedNewBlocks (parseMarkdownToBlocks oldText)
          (parseMarkdownToBlocks newContent) := by
  simp only [detectBlockChangesInternal] at h
  split at h
  · exact absurd h (by simp)
  · split at h
    · exact absurd h (by simp)
    · simp only [Option.some_inj] at h
      obtain ⟨pairs, hs2, hprops⟩ := phase2_spec
        (unmatchedOldBlocks (parseMarkdownToBlocks oldText)
          (parseMarkdownToBlocks newContent))
        (unmatchedNewBlocks (parseMarkdownToBlocks oldText)
          (parseMarkdownToBlocks newContent))
        (phase1State (parseMarkdownToBlocks oldText)
          (parseMarkdownToBlocks newContent))
      intro c hc hmod
      rw [← h] at hc
      dsimp only at hc
      rw [(sortChanges_perm _).mem_iff] at hc
      rw [hs2] at hc
      dsimp only at hc
      rw [phase1State_changes] at hc
      rw [List.nil_append] at hc
      rcases List.mem_append.1 hc with hc1 | hcadd
      · rcases List.mem_append.1 hc1 with hcmod | hcrem
        · rw [List.mem_map] at hcmod
          obtain ⟨p, hp, hpc⟩ := hcmod
          obtain ⟨hty, hdist, hmo, hmn⟩ := hprops p hp
          refine ⟨p.1, p.2, ?_, ?_, ?_, ?_, hty, hdist, hmo, hmn⟩ <;>
            rw [← hpc] <;> rfl
        · rw [List.mem_map] at hcrem
          obtain ⟨b, _, hbc⟩ := hcrem
          rw [← hbc] at hmod
          exact absurd hmod (by simp [mkRemoved])
      · rw [List.mem_map] at hcadd
        obtain ⟨b, _, hbc⟩ := hcadd
        rw [← hbc] at hmod
        exact absurd hmod (by simp [mkAdded])

/-- The single (modified) change of the `"a"` → `"b"` diff. -/
def c8WitnessChange : BlockChange :=
  c2WitnessDiff.changes.getD 0 ⟨.added, none, none, none, none⟩

/-- Witness for `fuzzy_match_bound` at the one concrete modified change of
the one-paragraph edit. -/
theorem fuzzy_match_bound_witness :
    ∃ ob nb : MarkdownBlock,
      c8WitnessChange.oldBlock = some ob ∧
      c8WitnessChange.newBlock = some nb ∧
      c8WitnessChange.oldIndex = some ob.index ∧
      c8WitnessChange.newIndex = some nb.index ∧
      ob.type = nb.type ∧ natDist ob.index nb.index ≤ 3 ∧
      ob ∈ unmatchedOldBlocks (parseMarkdownToBlocks "a")
        (parseMarkdownToBlocks "b") ∧
      nb ∈ unmatchedNewBlocks (parseMarkdownToBlocks "a")
        (parseMarkdownToBlocks "b") :=
  fuzzy_match_bound "a" "b" c2WitnessDiff rfl c8WitnessChange (by decide)
    (by decide)
